import Mathlib

/-!
Shallow embedding of the core control logic of the LLM_RAG repository:
`src/milvus_service.py` (vector store gateway), `src/data_ingestion.py`
(ingestion pipeline) and `src/lora_manager.py` (LoRA adapter manager).
External collaborators (SHA-256, the text splitter, the embedding
backend, the document loaders, the vLLM HTTP runtime, the ANN ranking of
Milvus) are parameters of the definitions; everything the repository
itself computes is translated directly from the source.
-/

deriving instance DecidableEq for Except

namespace LLMRag

/-- A row of the `rag_vectors` Milvus collection (schema declared in
`MilvusService.create_collection_if_not_exists`).  The auto-generated
primary key is not modelled; `E` is the embedding-vector type (opaque to
the control logic); `metadata` is the JSON payload, kept opaque. -/
structure MRow (E : Type) where
  tenant_id : Int
  document_id : Int
  chunk_index : Int
  chunk_version : Int
  content_hash : String
  text : String
  source : String
  metadata : String
  embedding : Option E
deriving DecidableEq

/-- A chunk dict as produced by `DataIngestionService._chunk_documents`
(keys `text`, `source`, `metadata`, `chunk_index`); `chunk_index` is
optional because `insert_chunks` falls back to the positional index
(`chunk.get('chunk_index', i)`). -/
structure ChunkDict where
  text : String
  source : String
  metadata : String
  chunk_index : Option Int
deriving DecidableEq

/-- Values the repository interpolates into Milvus filter strings:
integers (`key == value`) and integer lists (`key in [...]`). -/
inductive FilterVal where
  | int (v : Int)
  | list (vs : List Int)
deriving DecidableEq

/-- Abstract syntax of the boolean filter expressions the service builds
by string concatenation: `tenant_id == {t}`, `... && {key} == {value}`,
`... && {key} in {list}`. -/
inductive MilvusExpr where
  | eqInt (field : String) (v : Int)
  | inList (field : String) (vs : List Int)
  | and (a b : MilvusExpr)
deriving DecidableEq

/-- The filterable INT64 columns of the collection. -/
def fieldVal (r : MRow E) : String → Option Int
  | "tenant_id" => some r.tenant_id
  | "document_id" => some r.document_id
  | "chunk_index" => some r.chunk_index
  | "chunk_version" => some r.chunk_version
  | _ => none

/-- Evaluation of a filter expression on a row; a field that is not one
of the filterable INT64 columns matches nothing. -/
def evalExpr (r : MRow E) : MilvusExpr → Bool
  | .eqInt f v => ((fieldVal r f).map (fun x => x == v)).getD false
  | .inList f vs => ((fieldVal r f).map (fun x => vs.contains x)).getD false
  | .and a b => evalExpr r a && evalExpr r b

/-- Filter expression built by `MilvusService.search`: the mandatory
`tenant_id == {t}` term conjoined with one `==`/`in` term per entry of
the optional filter map. -/
def searchExprOf (tenant_id : Int) (filters : List (String × FilterVal)) : MilvusExpr :=
  filters.foldl
    (fun e kv =>
      match kv.2 with
      | .int v => .and e (.eqInt kv.1 v)
      | .list vs => .and e (.inList kv.1 vs))
    (.eqInt "tenant_id" tenant_id)

/-- Filter `tenant_id == {t} && document_id == {d}` used by
`delete_document_chunks`, `get_document_stats` and by the existing-hash
query inside `_process_document`. -/
def docExpr (tenant_id document_id : Int) : MilvusExpr :=
  .and (.eqInt "tenant_id" tenant_id) (.eqInt "document_id" document_id)

/-- `MilvusService.compute_content_hash`: the SHA-256 hex digest of the
full text; the digest function itself is external (`hashlib`). -/
def compute_content_hash (sha : String → String) (text : String) : String :=
  sha text

/-- Indexing a numpy array of rows with a Python int: nonnegative
indices address from the front, negative indices from the back, and
anything out of range raises IndexError (`none`). -/
def npGet (xs : List α) (i : Int) : Option α :=
  if 0 ≤ i then xs.get? i.toNat
  else if -i ≤ (xs.length : Int) then xs.get? (xs.length - (-i).toNat) else none

/-- Python string slicing `s[:n]`: the first `n` characters of the
string.  (Equal to `String.take`; defined on the character list directly
so that it evaluates by structural recursion on the string.) -/
def pySlice (s : String) (n : Nat) : String := String.mk (s.data.take n)

theorem pySlice_eq_take (s : String) (n : Nat) : pySlice s n = s.take n :=
  (String.take_eq s n).symm

/-- First phase of `MilvusService.insert_chunks`: build the row dicts.
`embeddings[i]` raises (whole call `none`) when the chunk list is longer
than the embedding matrix.  The source truncates `text` to 65535 and
`source` to 512 characters but hashes the untruncated text. -/
def prepareData (sha : String → String) (tenant_id document_id chunk_version : Int)
    (embs? : Option (List E)) : Nat → List ChunkDict → Option (List (MRow E))
  | _, [] => some []
  | i, c :: cs =>
    match embs? with
    | none =>
      (prepareData sha tenant_id document_id chunk_version none (i + 1) cs).map
        (fun rest =>
          { tenant_id := tenant_id, document_id := document_id,
            chunk_index := c.chunk_index.getD (Int.ofNat i),
            chunk_version := chunk_version,
            content_hash := sha c.text,
            text := pySlice c.text 65535,
            source := pySlice c.source 512,
            metadata := c.metadata,
            embedding := none } :: rest)
    | some es =>
      match es.get? i with
      | none => none
      | some e =>
        (prepareData sha tenant_id document_id chunk_version (some es) (i + 1) cs).map
          (fun rest =>
            { tenant_id := tenant_id, document_id := document_id,
              chunk_index := c.chunk_index.getD (Int.ofNat i),
              chunk_version := chunk_version,
              content_hash := sha c.text,
              text := pySlice c.text 65535,
              source := pySlice c.source 512,
              metadata := c.metadata,
              embedding := some e } :: rest)

/-- Per-item pass inside one insert batch: when embeddings are present
the item's embedding is overwritten by
`batch_embeddings[item['chunk_index'] - batch[0]['chunk_index']]`
(numpy indexing; an out-of-range offset raises). -/
def processBatchItems (base : Int) (batchEmbs : Option (List E)) :
    List (MRow E) → Option (List (MRow E))
  | [] => some []
  | item :: rest =>
    match batchEmbs with
    | none => (processBatchItems base none rest).map (fun rs => item :: rs)
    | some es =>
      match npGet es (item.chunk_index - base) with
      | none => none
      | some e =>
        (processBatchItems base (some es) rest).map
          (fun rs => { item with embedding := some e } :: rs)

/-- Batched insertion loop of `insert_chunks` (batch size 1000), driven
by a fuel so that the recursion is structural; `range(0, len(data),
1000)` makes at most `len(data)` iterations, and `insertBatches` below
instantiates the fuel with exactly that bound, so the zero-fuel branch
is unreachable.  The second component is the collection contents after
the call: batches inserted before a failing batch stay inserted (each
`collection.insert` commits separately). -/
def insertBatchesAux : Nat → List (MRow E) → Option (List E) → List (MRow E) →
    Option (List (MRow E)) × List (MRow E)
  | _, [], _, store => (some [], store)
  | 0, _ :: _, _, store => (some [], store)
  | fuel + 1, first :: tail, embs?, store =>
    let batch := (first :: tail).take 1000
    let batchEmbs := embs?.map (List.take 1000)
    match processBatchItems first.chunk_index batchEmbs batch with
    | none => (none, store)
    | some rows =>
      match insertBatchesAux fuel ((first :: tail).drop 1000)
          (embs?.map (List.drop 1000)) (store ++ rows) with
      | (none, s) => (none, s)
      | (some rest, s) => (some (rows ++ rest), s)

/-- The batched insertion loop of `insert_chunks`. -/
def insertBatches (data : List (MRow E)) (embs? : Option (List E))
    (store : List (MRow E)) : Option (List (MRow E)) × List (MRow E) :=
  insertBatchesAux data.length data embs? store

/-- `MilvusService.insert_chunks` acting on collection contents `store`.
Returns (result, new collection contents); a `none` result models the
call raising.  Milvus primary keys are not modelled; the first component
carries the successfully inserted rows instead. -/
def insert_chunks (sha : String → String) (tenant_id document_id : Int)
    (chunks : List ChunkDict) (chunk_version : Int) (embs? : Option (List E))
    (store : List (MRow E)) : Option (List (MRow E)) × List (MRow E) :=
  match prepareData sha tenant_id document_id chunk_version embs? 0 chunks with
  | none => (none, store)
  | some data => insertBatches data embs? store

/-- Candidate rows of `MilvusService.search`: the engine ranks the rows
matching the filter expression (scoring/ordering is external, abstracted
by `ranked`) and returns at most `top_k` hits. -/
def searchHits (ranked : List (MRow E) → List (MRow E)) (store : List (MRow E))
    (tenant_id : Int) (top_k : Nat) (filters : List (String × FilterVal)) :
    List (MRow E) :=
  (ranked (store.filter (fun r => evalExpr r (searchExprOf tenant_id filters)))).take top_k

/-- Formatted result dict built by `MilvusService.search`. -/
structure SearchResult where
  text : String
  source : String
  metadata : String
  document_id : Int
  chunk_version : Int
deriving DecidableEq

/-- `MilvusService.search` (the engine-provided per-hit `score` is not
modelled). -/
def search (ranked : List (MRow E) → List (MRow E)) (store : List (MRow E))
    (tenant_id : Int) (top_k : Nat) (filters : List (String × FilterVal)) :
    List SearchResult :=
  (searchHits ranked store tenant_id top_k filters).map
    (fun r => { text := r.text, source := r.source, metadata := r.metadata,
                document_id := r.document_id, chunk_version := r.chunk_version })

/-- `MilvusService.delete_document_chunks`: delete every row matching
`tenant_id == {t} && document_id == {d}`. -/
def delete_document_chunks (store : List (MRow E)) (tenant_id document_id : Int) :
    List (MRow E) :=
  store.filter (fun r => !(evalExpr r (docExpr tenant_id document_id)))

/-- Python `max(versions) if versions else 0` over a version list. -/
def maxIntList : List Int → Int
  | [] => 0
  | x :: xs => xs.foldl max x

/-- `MilvusService.get_document_stats`: `(chunk_count, latest_version)`
for the rows matching `tenant_id == {t} && document_id == {d}`. -/
def get_document_stats (store : List (MRow E)) (tenant_id document_id : Int) :
    Nat × Int :=
  let results := store.filter (fun r => evalExpr r (docExpr tenant_id document_id))
  if results.isEmpty then (0, 0)
  else (results.length, maxIntList (results.map (fun r => r.chunk_version)))

/-- The existing-hash query issued in `_process_document`
(`collection.query` with expr `tenant_id == t && document_id == d`,
projecting `content_hash`); the Python set comprehension is only used
for membership tests, so the list of hashes is kept. -/
def existingHashesQuery (store : List (MRow E)) (tenant_id document_id : Int) :
    List String :=
  (store.filter (fun r => evalExpr r (docExpr tenant_id document_id))).map
    (fun r => r.content_hash)

/-- A document as returned by the registered loaders (a `llama_index`
`Document`: text plus source metadata). -/
structure LoadedDoc where
  text : String
  source : String
  metadata : String
deriving DecidableEq

/-- `DataIngestionService._chunk_documents`: each loaded document is
split by the (external) text splitter and every piece becomes a chunk
dict whose top-level `chunk_index` is `len(chunks)` at append time, the
running count across all documents.  The per-chunk enrichment of the
JSON metadata (`doc_index`, per-document `chunk_index`) is kept opaque
inside `metadata`. -/
def chunkStep (split : String → List String) (chunks : List ChunkDict)
    (doc : LoadedDoc) : List ChunkDict :=
  chunks ++ (split doc.text).enum.map
    (fun p =>
      { text := p.2, source := doc.source, metadata := doc.metadata,
        chunk_index := some (Int.ofNat (chunks.length + p.1)) })

/-- The fold over all loaded documents. -/
def chunkDocuments (split : String → List String) (docs : List LoadedDoc) :
    List ChunkDict :=
  docs.foldl (chunkStep split) []

/-- A row of the SQL `Document` table, as far as `_process_document`
reads and mutates it. -/
structure DocRecord where
  id : Int
  status : String
  chunk_count : Int
  version : Int
deriving DecidableEq

/-- Queue item built by `DataIngestionService.queue_document` (the
enqueue timestamp is irrelevant to processing and not modelled). -/
structure DocInfo where
  tenant_id : Int
  document_id : Int
  file_type : String
  file_path : Option String
  source_url : Option String
deriving DecidableEq

/-- State touched by the ingestion pipeline: the Milvus collection, the
`Document` table, and a counter of embedding-backend batch calls. -/
structure IngestState (E : Type) where
  store : List (MRow E)
  docs : List DocRecord
  embedCalls : Nat
deriving DecidableEq

/-- `DocModel.query.get(id)` followed by attribute updates and a commit;
a no-op when the id is absent (the `if doc:` guard in the source). -/
def updateDoc (docs : List DocRecord) (id : Int) (f : DocRecord → DocRecord) :
    List DocRecord :=
  docs.map (fun d => if d.id == id then f d else d)

/-- Status column of the document record with the given id. -/
def statusOf (docs : List DocRecord) (id : Int) : Option String :=
  (docs.find? (fun d => d.id == id)).map (fun d => d.status)

/-- Version column of the document record with the given id. -/
def versionOf (docs : List DocRecord) (id : Int) : Option Int :=
  (docs.find? (fun d => d.id == id)).map (fun d => d.version)

/-- Chunk-count column of the document record with the given id. -/
def chunkCountOf (docs : List DocRecord) (id : Int) : Option Int :=
  (docs.find? (fun d => d.id == id)).map (fun d => d.chunk_count)

/-- `DataIngestionService._process_document`.  External collaborators
are parameters: `sha` (the SHA-256 hex digest), `split` (the
TokenTextSplitter), `embedBatch` (the embedding backend's single batch
call, counted in `embedCalls`), and `loader` (`_load_document`, whose
`Except` result models the load step raising).  Any exception raised in
the body is caught and the document is marked `failed`. -/
def processDocument (sha : String → String) (split : String → List String)
    (embedBatch : List String → List E)
    (loader : DocInfo → Except String (List LoadedDoc))
    (info : DocInfo) (st : IngestState E) : IngestState E :=
  match loader info with
  | .error _ =>
      { st with docs := (updateDoc st.docs info.document_id
          (fun d => { d with status := "failed" })) }
  | .ok docs =>
    let stats := get_document_stats st.store info.tenant_id info.document_id
    let chunks := chunkDocuments split docs
    let chunk_hashes := chunks.map (fun c => compute_content_hash sha c.text)
    let existing_hashes : List String :=
      if 0 < stats.1 then existingHashesQuery st.store info.tenant_id info.document_id
      else []
    let new_chunks :=
      ((chunks.zip chunk_hashes).filter
        (fun p => !(existing_hashes.contains p.2))).map Prod.fst
    if new_chunks.isEmpty then
      { st with docs := (updateDoc st.docs info.document_id
          (fun d => { d with status := "ready" })) }
    else
      let new_version := stats.2 + 1
      let embeddings := embedBatch (new_chunks.map (fun c => c.text))
      let st1 : IngestState E := { st with embedCalls := st.embedCalls + 1 }
      match insert_chunks sha info.tenant_id info.document_id new_chunks new_version
          (some embeddings) st1.store with
      | (none, store1) =>
          { st1 with store := store1,
                     docs := (updateDoc st1.docs info.document_id
                       (fun d => { d with status := "failed" })) }
      | (some _, store1) =>
          { st1 with store := store1,
                     docs := (updateDoc st1.docs info.document_id
                       (fun d =>
                         { d with
                           status := "ready"
                           chunk_count := Int.ofNat stats.1 + Int.ofNat new_chunks.length
                           version := new_version })) }

/-- `DataIngestionService._process_batch`: the asyncio fan-out/fan-in
over the batch with `return_exceptions=True`; outcomes are captured per
document, modelled as left-to-right processing (each document only
touches its own rows and its own record). -/
def processBatch (sha : String → String) (split : String → List String)
    (embedBatch : List String → List E)
    (loader : DocInfo → Except String (List LoadedDoc))
    (batch : List DocInfo) (st : IngestState E) : IngestState E :=
  batch.foldl (fun s i => processDocument sha split embedBatch loader i s) st

/-- A row of the SQL `LoRAAdapter` table (only the columns
`load_adapters_for_inference` reads). -/
structure AdapterRow where
  id : Int
  model_id : Int
deriving DecidableEq

/-- A row of the SQL `Model` table. -/
structure ModelRow where
  id : Int
  base_model_id : Int
deriving DecidableEq

/-- A row of the SQL `BaseModel` table. -/
structure BaseModelRow where
  id : Int
  name : String
  hf_model_id : String
  is_loaded : Bool
deriving DecidableEq

/-- The SQL tables the LoRA manager queries. -/
structure LoraDB where
  models : List ModelRow
  base_models : List BaseModelRow
  adapters : List AdapterRow
deriving DecidableEq

/-- vLLM-side adapter state (`vLLMService`): the `loaded_adapters`
bookkeeping updated on a successful load, plus a log of every
`load_lora_adapter` HTTP call `(model_name, adapter_name,
adapter_path)`. -/
structure VllmLora where
  loaded_adapters : List (String × String)
  loraCalls : List (String × String × String)
deriving DecidableEq

/-- `vLLMService.load_lora_adapter`: issues the HTTP call (success
decided by the external runtime, parameter `ok`); on a 200 response
records the adapter in `loaded_adapters` and returns `true`, otherwise
returns `false` with no bookkeeping. -/
def vllm_load_lora_adapter (ok : String → String → String → Bool)
    (model_name adapter_name adapter_path : String) (v : VllmLora) :
    Bool × VllmLora :=
  if ok model_name adapter_name adapter_path then
    (true, { loaded_adapters := v.loaded_adapters ++ [(model_name, adapter_name)],
             loraCalls := v.loraCalls ++ [(model_name, adapter_name, adapter_path)] })
  else (false, { v with loraCalls := v.loraCalls ++ [(model_name, adapter_name, adapter_path)] })

/-- Mutable state of `LoRAManager`: the `(base_model_name, adapter_id)`
keyed cache (key built as the string `f"{name}_{id}"`) plus the vLLM
state.  Dict semantics: keys are inserted only when absent, so a
first-match association list is faithful. -/
structure LoraMgrState where
  adapter_cache : List (String × String)
  vllm : VllmLora
deriving DecidableEq

/-- Dict lookup in the adapter cache. -/
def cacheLookup (cache : List (String × String)) (key : String) : Option String :=
  (cache.find? (fun e => e.1 == key)).map (fun e => e.2)

/-- `LoRAManager.get_adapter_path`. -/
def get_adapter_path (adapter_base_path : String) (adapter_id : Int) : String :=
  adapter_base_path ++ "/adapter_" ++ toString adapter_id

/-- Errors raised by the LoRA manager (`ValueError`s and the generic
load-failure `Exception` in the source). -/
inductive LoraError where
  | modelNotFound (model_id : Int)
  | baseModelNotFound (base_model_id : Int)
  | adaptersNotFound
  | loadFailure (adapter_id : Int)
deriving DecidableEq

/-- The per-adapter loop of `load_adapters_for_inference`: on a cache
miss, call the runtime and cache the name on success; on a cache hit,
reuse the cached name; a failed runtime load raises immediately, keeping
all mutations made so far (Python state is in place). -/
def loadLoop (ok : String → String → String → Bool) (base_path bm_name : String) :
    List AdapterRow → List String → LoraMgrState →
    Except LoraError (List String) × LoraMgrState
  | [], acc, st => (.ok acc, st)
  | a :: rest, acc, st =>
    match cacheLookup st.adapter_cache (bm_name ++ "_" ++ toString a.id) with
    | some cached => loadLoop ok base_path bm_name rest (acc ++ [cached]) st
    | none =>
      match vllm_load_lora_adapter ok bm_name ("adapter_" ++ toString a.id)
          (get_adapter_path base_path a.id) st.vllm with
      | (true, v1) =>
          loadLoop ok base_path bm_name rest (acc ++ ["adapter_" ++ toString a.id])
            { adapter_cache := st.adapter_cache
                ++ [(bm_name ++ "_" ++ toString a.id, "adapter_" ++ toString a.id)],
              vllm := v1 }
      | (false, v1) => (.error (.loadFailure a.id), { st with vllm := v1 })

/-- `LoRAManager.load_adapters_for_inference` (the body runs under the
manager lock; single-threaded model).  Resolves the model, its base
model, and the adapter rows matching both the requested ids and the
model; rejects a partial match wholesale; then runs the load loop. -/
def load_adapters_for_inference (ok : String → String → String → Bool)
    (base_path : String) (db : LoraDB) (model_id : Int) (adapter_ids : List Int)
    (st : LoraMgrState) : Except LoraError (List String) × LoraMgrState :=
  match db.models.find? (fun m => m.id == model_id) with
  | none => (.error (.modelNotFound model_id), st)
  | some model =>
    match db.base_models.find? (fun b => b.id == model.base_model_id) with
    | none => (.error (.baseModelNotFound model.base_model_id), st)
    | some base_model =>
      let adapters := db.adapters.filter
        (fun a => adapter_ids.contains a.id && a.model_id == model_id)
      if adapters.length != adapter_ids.length then (.error .adaptersNotFound, st)
      else loadLoop ok base_path base_model.name adapters [] st

/-- vLLM-side base-model state: the `loaded_models` dict keys plus a log
of every `load_base_model` HTTP call `(model_name, model_path)`. -/
structure VllmBase where
  loaded_models : List String
  baseCalls : List (String × String)
deriving DecidableEq

/-- `vLLMService.load_base_model`: issues the HTTP call (success decided
by the external runtime); on a 200 response records the model in
`loaded_models` and returns `true`. -/
def vllm_load_base_model (ok : String → String → Bool)
    (model_name model_path : String) (v : VllmBase) : Bool × VllmBase :=
  if ok model_name model_path then
    (true, { loaded_models := v.loaded_models ++ [model_name],
             baseCalls := v.baseCalls ++ [(model_name, model_path)] })
  else (false, { v with baseCalls := v.baseCalls ++ [(model_name, model_path)] })

/-- State read and mutated by `ensure_base_model_loaded`: the vLLM base
state and the `BaseModel` table (for the `is_loaded` commit). -/
structure EnsureState where
  vllm : VllmBase
  base_models : List BaseModelRow
deriving DecidableEq

/-- Errors raised by `ensure_base_model_loaded`. -/
inductive EnsureError where
  | notFound (base_model_id : Int)
  | loadFailed (name : String)
deriving DecidableEq

/-- `LoRAManager.ensure_base_model_loaded`: looks the base model up by
id; if its name is not among the runtime's `loaded_models` keys, calls
the runtime load, raising on failure and otherwise persisting
`is_loaded = True`; returns the model name. -/
def ensure_base_model_loaded (ok : String → String → Bool) (base_model_id : Int)
    (st : EnsureState) : Except EnsureError String × EnsureState :=
  match st.base_models.find? (fun b => b.id == base_model_id) with
  | none => (.error (.notFound base_model_id), st)
  | some base_model =>
    if st.vllm.loaded_models.contains base_model.name then (.ok base_model.name, st)
    else
      match vllm_load_base_model ok base_model.name base_model.hf_model_id st.vllm with
      | (false, v1) => (.error (.loadFailed base_model.name), { st with vllm := v1 })
      | (true, v1) =>
          (.ok base_model.name,
           { vllm := v1,
             base_models := (st.base_models.map
               (fun b => if b.id == base_model_id then { b with is_loaded := true } else b)) })

/-! ### Generic helper lemmas -/

theorem string_append_cancel_left {a b c : String} (h : a ++ b = a ++ c) : b = c := by
  have h2 := congrArg String.data h
  simp only [String.data_append] at h2
  exact String.ext (List.append_cancel_left h2)

theorem cacheLookup_append_left {cache news : List (String × String)} {k v : String}
    (h : cacheLookup cache k = some v) : cacheLookup (cache ++ news) k = some v := by
  unfold cacheLookup at h ⊢
  rw [List.find?_append]
  cases hf : cache.find? (fun x => x.1 == k) with
  | none => rw [hf] at h; simp at h
  | some e => rw [hf] at h; simpa using h

theorem cacheLookup_append_none_right {cache news : List (String × String)} {k : String}
    (h : cacheLookup (cache ++ news) k = none) : ∀ e ∈ news, e.1 ≠ k := by
  unfold cacheLookup at h
  rw [List.find?_append] at h
  simp only [Option.map_eq_none', Option.or_eq_none, List.find?_eq_none] at h
  intro e he
  have := h.2 e he
  simpa using this

theorem cacheLookup_left_none {cache news : List (String × String)} {k : String}
    (h : cacheLookup (cache ++ news) k = none) : cacheLookup cache k = none := by
  unfold cacheLookup at h ⊢
  rw [List.find?_append] at h
  simp only [Option.map_eq_none', Option.or_eq_none] at h
  simp [h.1]

theorem cacheLookup_append_cons_self {cache : List (String × String)} {k v : String}
    (h : cacheLookup cache k = none) (rest : List (String × String)) :
    cacheLookup (cache ++ (k, v) :: rest) k = some v := by
  unfold cacheLookup at h ⊢
  rw [List.find?_append]
  simp only [Option.map_eq_none'] at h
  simp [h]

/-! ### Specification of the adapter load loop -/

/-- Behaviour of the per-adapter loop of `load_adapters_for_inference`:
the cache grows by a block of fresh entries (keys previously absent,
pairwise distinct, of the shape `{bm_name}_{id} -> adapter_{id}`), vLLM
adapter bookkeeping grows by exactly the corresponding pairs, a
successful run logs one runtime call per fresh cache entry, and after a
load failure for adapter `i` the final cache holds no entry for `i`. -/
theorem loadLoop_spec (ok : String → String → String → Bool) (base_path bm_name : String) :
    ∀ (adapters : List AdapterRow) (acc : List String) (st : LoraMgrState)
      (res : Except LoraError (List String)) (st' : LoraMgrState),
      loadLoop ok base_path bm_name adapters acc st = (res, st') →
      ∃ news : List (String × String),
        st'.adapter_cache = st.adapter_cache ++ news ∧
        (∀ e ∈ news, cacheLookup st.adapter_cache e.1 = none) ∧
        (news.map Prod.fst).Nodup ∧
        (∀ e ∈ news, ∃ s, e.1 = bm_name ++ "_" ++ s ∧ e.2 = "adapter_" ++ s) ∧
        st'.vllm.loaded_adapters
          = st.vllm.loaded_adapters ++ news.map (fun e => (bm_name, e.2)) ∧
        (∀ names, res = .ok names →
          ∃ newCalls, st'.vllm.loraCalls = st.vllm.loraCalls ++ newCalls ∧
            newCalls.map (fun c => c.2.1) = news.map Prod.snd) ∧
        (∀ i, res = .error (.loadFailure i) →
          cacheLookup st'.adapter_cache (bm_name ++ "_" ++ toString i) = none) := by
  intro adapters
  induction adapters with
  | nil =>
    intro acc st res st' h
    simp only [loadLoop] at h
    obtain ⟨rfl, rfl⟩ : res = .ok acc ∧ st' = st := by
      constructor <;> [exact (Prod.mk.injEq .. ▸ h).1.symm; exact (Prod.mk.injEq .. ▸ h).2.symm]
    exact ⟨[], by simp, by simp, by simp, by simp, by simp,
      fun names h1 => ⟨[], by simp⟩, by simp⟩
  | cons a rest ih =>
    intro acc st res st' h
    simp only [loadLoop] at h
    cases hc : cacheLookup st.adapter_cache (bm_name ++ "_" ++ toString a.id) with
    | some cached =>
      rw [hc] at h
      exact ih (acc ++ [cached]) st res st' h
    | none =>
      rw [hc] at h
      by_cases hok : ok bm_name ("adapter_" ++ toString a.id) (get_adapter_path base_path a.id)
      · simp only [vllm_load_lora_adapter, hok, if_pos] at h
        obtain ⟨news', h1, h2, h3, h4, h5, h6, h7⟩ :=
          ih (acc ++ ["adapter_" ++ toString a.id])
            { adapter_cache := st.adapter_cache
                ++ [(bm_name ++ "_" ++ toString a.id, "adapter_" ++ toString a.id)],
              vllm := { loaded_adapters :=
                          st.vllm.loaded_adapters ++ [(bm_name, "adapter_" ++ toString a.id)],
                        loraCalls := st.vllm.loraCalls
                          ++ [(bm_name, "adapter_" ++ toString a.id,
                               get_adapter_path base_path a.id)] } }
            res st' h
        refine ⟨(bm_name ++ "_" ++ toString a.id, "adapter_" ++ toString a.id) :: news',
          ?_, ?_, ?_, ?_, ?_, ?_, ?_⟩
        · simpa [List.append_assoc] using h1
        · intro e he
          rcases List.mem_cons.mp he with rfl | he'
          · exact hc
          · exact cacheLookup_left_none (by simpa using h2 e he')
        · refine List.nodup_cons.mpr ⟨?_, h3⟩
          intro hmem
          obtain ⟨e, he, hfst⟩ := List.mem_map.mp hmem
          have h2e := h2 e he
          have : cacheLookup
              (st.adapter_cache
                ++ [(bm_name ++ "_" ++ toString a.id, "adapter_" ++ toString a.id)]) e.1
              = some ("adapter_" ++ toString a.id) := by
            rw [hfst]
            exact cacheLookup_append_cons_self hc []
          rw [h2e] at this
          exact Option.noConfusion this
        · intro e he
          rcases List.mem_cons.mp he with rfl | he'
          · exact ⟨toString a.id, rfl, rfl⟩
          · exact h4 e he'
        · simpa [List.append_assoc] using h5
        · intro names hres
          obtain ⟨newCalls', hcalls, hnames⟩ := h6 names hres
          exact ⟨(bm_name, "adapter_" ++ toString a.id, get_adapter_path base_path a.id)
              :: newCalls', by simpa [List.append_assoc] using hcalls, by simpa using hnames⟩
        · exact h7
      · simp only [vllm_load_lora_adapter, hok, if_neg, if_false] at h
        obtain ⟨rfl, rfl⟩ : res = .error (.loadFailure a.id) ∧
            st' = { st with vllm := { st.vllm with
              loraCalls := st.vllm.loraCalls
                ++ [(bm_name, "adapter_" ++ toString a.id,
                     get_adapter_path base_path a.id)] } } := by
          constructor <;> [exact (Prod.mk.injEq .. ▸ h).1.symm; exact (Prod.mk.injEq .. ▸ h).2.symm]
        refine ⟨[], by simp, by simp, by simp, by simp, by simp, ?_, ?_⟩
        · intro names h1; exact absurd h1 (by simp)
        · intro i hres
          have : i = a.id := by
            cases hres
            rfl
          subst this
          exact hc

/-- Running the load loop a second time from the state a successful run
produced is a pure cache-hit pass: same names, state untouched. -/
theorem loadLoop_idem (ok : String → String → String → Bool) (base_path bm_name : String) :
    ∀ (adapters : List AdapterRow) (acc : List String) (st : LoraMgrState)
      (names : List String) (st' : LoraMgrState),
      loadLoop ok base_path bm_name adapters acc st = (.ok names, st') →
      loadLoop ok base_path bm_name adapters acc st' = (.ok names, st') := by
  intro adapters
  induction adapters with
  | nil =>
    intro acc st names st' h
    simp only [loadLoop] at h ⊢
    obtain ⟨h1, rfl⟩ : Except.ok (ε := LoraError) acc = .ok names ∧ st = st' := by
      constructor <;> [exact (Prod.mk.injEq .. ▸ h).1; exact (Prod.mk.injEq .. ▸ h).2]
    simpa using h1
  | cons a rest ih =>
    intro acc st names st' h
    simp only [loadLoop] at h ⊢
    cases hc : cacheLookup st.adapter_cache (bm_name ++ "_" ++ toString a.id) with
    | some cached =>
      rw [hc] at h
      obtain ⟨news, hcache, -⟩ := loadLoop_spec ok base_path bm_name rest
        (acc ++ [cached]) st (.ok names) st' h
      have hlook : cacheLookup st'.adapter_cache (bm_name ++ "_" ++ toString a.id)
          = some cached := by
        rw [hcache]; exact cacheLookup_append_left hc
      rw [hlook]
      exact ih (acc ++ [cached]) st names st' h
    | none =>
      rw [hc] at h
      by_cases hok : ok bm_name ("adapter_" ++ toString a.id) (get_adapter_path base_path a.id)
      · simp only [vllm_load_lora_adapter, hok, if_pos] at h
        obtain ⟨news, hcache, -⟩ := loadLoop_spec ok base_path bm_name rest
          (acc ++ ["adapter_" ++ toString a.id])
          { adapter_cache := st.adapter_cache
              ++ [(bm_name ++ "_" ++ toString a.id, "adapter_" ++ toString a.id)],
            vllm := { loaded_adapters :=
                        st.vllm.loaded_adapters ++ [(bm_name, "adapter_" ++ toString a.id)],
                      loraCalls := st.vllm.loraCalls
                        ++ [(bm_name, "adapter_" ++ toString a.id,
                             get_adapter_path base_path a.id)] } }
          (.ok names) st' h
        have hlook : cacheLookup st'.adapter_cache (bm_name ++ "_" ++ toString a.id)
            = some ("adapter_" ++ toString a.id) := by
          rw [hcache]
          exact cacheLookup_append_left (cacheLookup_append_cons_self hc [])
        rw [hlook]
        exact ih (acc ++ ["adapter_" ++ toString a.id]) _ names st' h
      · simp only [vllm_load_lora_adapter, hok, if_neg, if_false] at h
        exact absurd (Prod.mk.injEq .. ▸ h).1 (by simp)

/-! ### C4, C5, C6, C9 -/

/-- C4 counterexample scenario: model 1 on base model 1 (name `bm`),
adapters 1 and 2 both belonging to model 1; the runtime accepts
`adapter_1` and refuses `adapter_2`. -/
def c4db : LoraDB :=
  { models := [{ id := 1, base_model_id := 1 }],
    base_models := [{ id := 1, name := "bm", hf_model_id := "hf", is_loaded := false }],
    adapters := [{ id := 1, model_id := 1 }, { id := 2, model_id := 1 }] }

/-- Runtime that loads `adapter_1` and refuses `adapter_2`. -/
def c4ok : String → String → String → Bool := fun _ an _ => an == "adapter_1"

/-- An empty LoRA manager state. -/
def emptyMgr : LoraMgrState := { adapter_cache := [], vllm := { loaded_adapters := [], loraCalls := [] } }

/-- C4 counterexample: requesting adapters [1, 2] where the runtime load
of adapter 2 fails raises the load-failure error, yet adapter 1 has been
loaded into the runtime and inserted into the cache as a side effect —
the call is not all-or-nothing, contradicting the claim that on any
failure "no adapter is loaded as a side effect and nothing is inserted
into the adapter cache". -/
theorem c4_counterexample :
    (load_adapters_for_inference c4ok "./adapters" c4db 1 [1, 2] emptyMgr).1
        = .error (.loadFailure 2) ∧
    (load_adapters_for_inference c4ok "./adapters" c4db 1 [1, 2] emptyMgr).2.adapter_cache
        = [("bm_1", "adapter_1")] ∧
    (load_adapters_for_inference c4ok "./adapters" c4db 1 [1, 2] emptyMgr).2.vllm.loaded_adapters
        = [("bm", "adapter_1")] := by decide

/-- C4 (amended): `load_adapters_for_inference` raises `AdaptersNotFound`
whenever the count of adapter rows matching both the requested ids and
the model differs from the count of requested ids, and in that case the
state is untouched; on a runtime load failure for adapter `i` the error
is surfaced with adapter `i` neither cached nor registered in the
runtime — but adapters processed earlier in the same call that loaded
successfully remain loaded and cached (no all-or-nothing rollback). -/
theorem c4_partial_match_rejected_no_failing_side_effect
    (ok : String → String → String → Bool) (base_path : String) (db : LoraDB)
    (model_id : Int) (adapter_ids : List Int) (st : LoraMgrState)
    (model : ModelRow) (base_model : BaseModelRow)
    (hm : db.models.find? (fun m => m.id == model_id) = some model)
    (hb : db.base_models.find? (fun b => b.id == model.base_model_id) = some base_model) :
    ((db.adapters.filter
        (fun a => adapter_ids.contains a.id && a.model_id == model_id)).length
          ≠ adapter_ids.length →
      load_adapters_for_inference ok base_path db model_id adapter_ids st
        = (.error .adaptersNotFound, st)) ∧
    (∀ i res st',
      load_adapters_for_inference ok base_path db model_id adapter_ids st = (res, st') →
      res = .error (.loadFailure i) →
      cacheLookup st'.adapter_cache (base_model.name ++ "_" ++ toString i) = none ∧
      ∃ L, st'.vllm.loaded_adapters = st.vllm.loaded_adapters ++ L ∧
           (base_model.name, "adapter_" ++ toString i) ∉ L) := by
  constructor
  · intro hne
    simp only [load_adapters_for_inference, hm, hb]
    rw [if_pos (by simpa using hne)]
  · intro i res st' h hres
    simp only [load_adapters_for_inference, hm, hb] at h
    by_cases hlen : ((db.adapters.filter
        (fun a => adapter_ids.contains a.id && a.model_id == model_id)).length
          != adapter_ids.length) = true
    · rw [if_pos hlen] at h
      have : res = .error .adaptersNotFound := (Prod.mk.injEq .. ▸ h).1.symm
      rw [this] at hres
      exact absurd (Except.error.inj hres) (by intro he; cases he)
    · rw [if_neg hlen] at h
      obtain ⟨news, hcache, hfresh, -, hform, hloaded, -, hfail⟩ :=
        loadLoop_spec ok base_path base_model.name _ [] st res st' h
      have hnone := hfail i hres
      refine ⟨hnone, news.map (fun e => (base_model.name, e.2)), hloaded, ?_⟩
      intro hmem
      obtain ⟨e, he, heq⟩ := List.mem_map.mp hmem
      obtain ⟨s, hs1, hs2⟩ := hform e he
      have hs : s = toString i := by
        have : "adapter_" ++ s = "adapter_" ++ toString i := by
          rw [← hs2]
          exact congrArg Prod.snd heq
        exact string_append_cancel_left this
      have hek : e.1 = base_model.name ++ "_" ++ toString i := by rw [hs1, hs]
      have := cacheLookup_append_none_right (hcache ▸ hnone) e he
      exact this hek

/-- C4 witness state after the counterexample run: adapter 1 loaded and
cached, adapter 2 absent. -/
def c4stAfter : LoraMgrState :=
  { adapter_cache := [("bm_1", "adapter_1")],
    vllm := { loaded_adapters := [("bm", "adapter_1")],
              loraCalls := [("bm", "adapter_1", "./adapters/adapter_1"),
                            ("bm", "adapter_2", "./adapters/adapter_2")] } }

/-- Witness for the amended C4 theorem at the counterexample input. -/
theorem c4_partial_match_witness :
    cacheLookup c4stAfter.adapter_cache ("bm" ++ "_" ++ toString (2 : Int)) = none ∧
    ∃ L, c4stAfter.vllm.loaded_adapters = emptyMgr.vllm.loaded_adapters ++ L ∧
         ("bm", "adapter_" ++ toString (2 : Int)) ∉ L :=
  (c4_partial_match_rejected_no_failing_side_effect c4ok "./adapters" c4db 1 [1, 2]
      emptyMgr { id := 1, base_model_id := 1 }
      { id := 1, name := "bm", hf_model_id := "hf", is_loaded := false }
      (by decide) (by decide)).2
    2 (.error (.loadFailure 2)) c4stAfter (by decide) rfl

/-- C5 counterexample state: the base model's persisted `is_loaded` flag
is `true`, but the runtime's `loaded_models` dict is empty (the
situation after a process restart). -/
def c5st : EnsureState :=
  { vllm := { loaded_models := [], baseCalls := [] },
    base_models := [{ id := 1, name := "m", hf_model_id := "p", is_loaded := true }] }

/-- C5 counterexample: with `is_loaded = true` the claim says the name
is returned without invoking the runtime load, but the code guards on
membership in the runtime's `loaded_models` instead and issues a runtime
load call. -/
theorem c5_counterexample :
    ((c5st.base_models.find? (fun b => b.id == 1)).map (fun b => b.is_loaded)
        = some true) ∧
    (ensure_base_model_loaded (fun _ _ => true) 1 c5st).2.vllm.baseCalls
        = [("m", "p")] := by decide

/-- C5 (amended): `ensure_base_model_loaded` fails with a not-found
error when the id is unknown; otherwise, if the model's name is NOT a
key of the runtime's `loaded_models` dict (rather than testing the
persisted `is_loaded` flag) it invokes the runtime load — on success
setting `is_loaded` to true, persisting it and returning the name, and
failing with a load-failure error when the runtime call fails; if the
name is already in `loaded_models` it returns the name without invoking
the runtime load. -/
theorem c5_ensure_base_model_loaded_amended (ok : String → String → Bool)
    (base_model_id : Int) (st : EnsureState) :
    (st.base_models.find? (fun b => b.id == base_model_id) = none →
      ensure_base_model_loaded ok base_model_id st
        = (.error (.notFound base_model_id), st)) ∧
    (∀ bm, st.base_models.find? (fun b => b.id == base_model_id) = some bm →
      ((bm.name ∈ st.vllm.loaded_models →
          ensure_base_model_loaded ok base_model_id st = (.ok bm.name, st)) ∧
       (bm.name ∉ st.vllm.loaded_models → ok bm.name bm.hf_model_id = true →
          ensure_base_model_loaded ok base_model_id st =
            (.ok bm.name,
             { vllm := { loaded_models := st.vllm.loaded_models ++ [bm.name],
                         baseCalls := st.vllm.baseCalls ++ [(bm.name, bm.hf_model_id)] },
               base_models := (st.base_models.map
                 (fun b => if b.id == base_model_id then { b with is_loaded := true }
                           else b)) })) ∧
       (bm.name ∉ st.vllm.loaded_models → ok bm.name bm.hf_model_id = false →
          ensure_base_model_loaded ok base_model_id st =
            (.error (.loadFailed bm.name),
             { st with vllm := { st.vllm with
                 baseCalls := st.vllm.baseCalls ++ [(bm.name, bm.hf_model_id)] } })))) := by
  refine ⟨fun h => by simp [ensure_base_model_loaded, h], ?_⟩
  intro bm hbm
  refine ⟨?_, ?_, ?_⟩
  · intro hmem
    have hc : st.vllm.loaded_models.contains bm.name = true := List.elem_iff.mpr hmem
    simp only [ensure_base_model_loaded, hbm, hc, if_true]
  · intro hmem hok
    have hc : st.vllm.loaded_models.contains bm.name = false :=
      Bool.eq_false_iff.mpr (fun hcon => hmem (List.elem_iff.mp hcon))
    simp only [ensure_base_model_loaded, hbm, hc, Bool.false_eq_true, if_false,
      vllm_load_base_model, hok, if_true]
  · intro hmem hok
    have hc : st.vllm.loaded_models.contains bm.name = false :=
      Bool.eq_false_iff.mpr (fun hcon => hmem (List.elem_iff.mp hcon))
    simp only [ensure_base_model_loaded, hbm, hc, Bool.false_eq_true, if_false,
      vllm_load_base_model, hok, if_true]

/-- C5 witness state: base model known, not yet loaded anywhere. -/
def c5stw : EnsureState :=
  { vllm := { loaded_models := [], baseCalls := [] },
    base_models := [{ id := 1, name := "m", hf_model_id := "p", is_loaded := false }] }

/-- Witness for the amended C5 theorem: a successful load path at a
concrete state. -/
theorem c5_ensure_witness :
    ensure_base_model_loaded (fun _ _ => true) 1 c5stw
      = (.ok "m",
         { vllm := { loaded_models := ["m"], baseCalls := [("m", "p")] },
           base_models := [{ id := 1, name := "m", hf_model_id := "p",
                             is_loaded := true }] }) :=
  ((c5_ensure_base_model_loaded_amended (fun _ _ => true) 1 c5stw).2
      { id := 1, name := "m", hf_model_id := "p", is_loaded := false }
      (by decide)).2.1 (by decide) rfl

/-- C6: when a first call of `load_adapters_for_inference` succeeds, a
second call with the same arguments is served entirely from the
`(base_model_name, adapter_id)` cache: it returns the identical name
list and leaves the state untouched (hence issues no additional runtime
load calls), and the first call logged pairwise-distinct runtime load
calls (at most one per adapter across both calls). -/
theorem c6_adapter_cache_idempotent (ok : String → String → String → Bool)
    (base_path : String) (db : LoraDB) (model_id : Int) (adapter_ids : List Int)
    (st st' : LoraMgrState) (names : List String)
    (h : load_adapters_for_inference ok base_path db model_id adapter_ids st
          = (.ok names, st')) :
    load_adapters_for_inference ok base_path db model_id adapter_ids st'
        = (.ok names, st') ∧
    ∃ newCalls, st'.vllm.loraCalls = st.vllm.loraCalls ++ newCalls ∧ newCalls.Nodup := by
  simp only [load_adapters_for_inference] at h ⊢
  cases hm : db.models.find? (fun m => m.id == model_id) with
  | none => simp only [hm] at h; exact absurd (Prod.mk.injEq .. ▸ h).1 (by simp)
  | some model =>
  simp only [hm] at h ⊢
  cases hb : db.base_models.find? (fun b => b.id == model.base_model_id) with
  | none => simp only [hb] at h; exact absurd (Prod.mk.injEq .. ▸ h).1 (by simp)
  | some base_model =>
  simp only [hb] at h ⊢
  by_cases hlen : ((db.adapters.filter
      (fun a => adapter_ids.contains a.id && a.model_id == model_id)).length
        != adapter_ids.length) = true
  · rw [if_pos hlen] at h; exact absurd (Prod.mk.injEq .. ▸ h).1 (by simp)
  · rw [if_neg hlen] at h
    rw [if_neg hlen]
    refine ⟨loadLoop_idem ok base_path base_model.name _ [] st names st' h, ?_⟩
    obtain ⟨news, -, -, hfstN, hform, -, hcalls, -⟩ :=
      loadLoop_spec ok base_path base_model.name _ [] st (.ok names) st' h
    obtain ⟨newCalls, hc1, hc2⟩ := hcalls names rfl
    refine ⟨newCalls, hc1, ?_⟩
    have hpw : news.Pairwise (fun a b => a.1 ≠ b.1) := List.pairwise_map.mp hfstN
    have hsndN : (news.map Prod.snd).Nodup := by
      refine List.pairwise_map.mpr (hpw.imp_of_mem ?_)
      intro a b ha hb hne heq
      obtain ⟨s, hs1, hs2⟩ := hform a ha
      obtain ⟨t, ht1, ht2⟩ := hform b hb
      apply hne
      rw [hs1, ht1]
      have : s = t := string_append_cancel_left (by rw [← hs2, ← ht2]; exact heq)
      rw [this]
    have : (newCalls.map (fun c => c.2.1)).Nodup := by rw [hc2]; exact hsndN
    exact List.Nodup.of_map _ this

/-- C6 witness scenario: one model with one adapter, runtime accepts
every load. -/
def c6db : LoraDB :=
  { models := [{ id := 1, base_model_id := 1 }],
    base_models := [{ id := 1, name := "bm", hf_model_id := "hf", is_loaded := false }],
    adapters := [{ id := 1, model_id := 1 }] }

/-- C6 witness state after the first successful call. -/
def c6stAfter : LoraMgrState :=
  { adapter_cache := [("bm_1", "adapter_1")],
    vllm := { loaded_adapters := [("bm", "adapter_1")],
              loraCalls := [("bm", "adapter_1", "./adapters/adapter_1")] } }

/-- Witness for C6 at a concrete first call. -/
theorem c6_adapter_cache_witness :
    load_adapters_for_inference (fun _ _ _ => true) "./adapters" c6db 1 [1] c6stAfter
        = (.ok ["adapter_1"], c6stAfter) ∧
    ∃ newCalls, c6stAfter.vllm.loraCalls = emptyMgr.vllm.loraCalls ++ newCalls ∧
      newCalls.Nodup :=
  c6_adapter_cache_idempotent (fun _ _ _ => true) "./adapters" c6db 1 [1]
    emptyMgr c6stAfter ["adapter_1"] (by decide)

/-- C9: a duplicated id in `adapter_ids` makes the call raise the
adapters-not-found error even when every distinct id names an adapter of
the model, because the database resolves distinct rows and the row count
is compared against the length of the request list. -/
theorem c9_duplicate_adapter_ids_rejected (ok : String → String → String → Bool)
    (base_path : String) (db : LoraDB) (model_id : Int) (adapter_ids : List Int)
    (st : LoraMgrState) (model : ModelRow) (base_model : BaseModelRow)
    (hm : db.models.find? (fun m => m.id == model_id) = some model)
    (hb : db.base_models.find? (fun b => b.id == model.base_model_id) = some base_model)
    (hdb : (db.adapters.map (fun a => a.id)).Nodup)
    (hdup : ¬ adapter_ids.Nodup) :
    load_adapters_for_inference ok base_path db model_id adapter_ids st
      = (.error .adaptersNotFound, st) := by
  simp only [load_adapters_for_inference, hm, hb]
  have hlt : (db.adapters.filter
      (fun a => adapter_ids.contains a.id && a.model_id == model_id)).length
        < adapter_ids.length := by
    set flt := db.adapters.filter
      (fun a => adapter_ids.contains a.id && a.model_id == model_id) with hflt
    have hN : (flt.map (fun a => a.id)).Nodup :=
      ((List.filter_sublist db.adapters).map _).nodup hdb
    have hsubset : ∀ x ∈ flt.map (fun a => a.id), x ∈ adapter_ids := by
      intro x hx
      obtain ⟨a, ha, rfl⟩ := List.mem_map.mp hx
      have := (List.mem_filter.mp (hflt ▸ ha)).2
      exact List.elem_iff.mp (Bool.and_elim_left this)
    have hfin : (flt.map (fun a => a.id)).toFinset ⊆ adapter_ids.toFinset := by
      intro x hx
      rw [List.mem_toFinset] at hx ⊢
      exact hsubset x hx
    have h1 : flt.length = (flt.map (fun a => a.id)).toFinset.card := by
      rw [List.toFinset_card_of_nodup hN, List.length_map]
    have h2 : (flt.map (fun a => a.id)).toFinset.card ≤ adapter_ids.toFinset.card :=
      Finset.card_le_card hfin
    have h3 : adapter_ids.toFinset.card = adapter_ids.dedup.length :=
      List.card_toFinset adapter_ids
    have h4 : adapter_ids.dedup.length < adapter_ids.length := by
      rcases Nat.lt_or_ge adapter_ids.dedup.length adapter_ids.length with hl | hg
      · exact hl
      · exfalso
        apply hdup
        have heq := (List.dedup_sublist adapter_ids).eq_of_length
          (Nat.le_antisymm ((List.dedup_sublist adapter_ids).length_le) hg)
        rw [← heq]
        exact List.nodup_dedup adapter_ids
    omega
  rw [if_pos (by simpa using Nat.ne_of_lt hlt)]

/-- C9 witness database: one model, one adapter. -/
def c9db : LoraDB :=
  { models := [{ id := 1, base_model_id := 1 }],
    base_models := [{ id := 1, name := "bm", hf_model_id := "hf", is_loaded := false }],
    adapters := [{ id := 1, model_id := 1 }] }

/-- Witness for C9: requesting [1, 1] where adapter 1 exists still
raises adapters-not-found. -/
theorem c9_duplicate_ids_witness :
    load_adapters_for_inference (fun _ _ _ => true) "./adapters" c9db 1 [1, 1] emptyMgr
      = (.error .adaptersNotFound, emptyMgr) :=
  c9_duplicate_adapter_ids_rejected (fun _ _ _ => true) "./adapters" c9db 1 [1, 1]
    emptyMgr { id := 1, base_model_id := 1 }
    { id := 1, name := "bm", hf_model_id := "hf", is_loaded := false }
    (by decide) (by decide) (by decide) (by decide)

/-! ### Lemmas about `insert_chunks` -/

/-- Projection of a row to everything except the embedding payload. -/
def MRow.core (r : MRow E) : Int × Int × Int × Int × String × String × String × String :=
  (r.tenant_id, r.document_id, r.chunk_index, r.chunk_version,
   r.content_hash, r.text, r.source, r.metadata)

/-- The batch loop's per-item embedding overwrite. -/
def withEmb (r : MRow E) (e : E) : MRow E := { r with embedding := some e }

theorem core_withEmb (r : MRow E) (e : E) : (withEmb r e).core = r.core := rfl

theorem core_fields {r q : MRow E} (h : MRow.core r = MRow.core q) :
    r.tenant_id = q.tenant_id ∧ r.document_id = q.document_id ∧
    r.chunk_index = q.chunk_index ∧ r.chunk_version = q.chunk_version ∧
    r.content_hash = q.content_hash ∧ r.text = q.text ∧
    r.source = q.source ∧ r.metadata = q.metadata := by
  simp only [MRow.core, Prod.mk.injEq] at h
  exact h

theorem prepareData_fields (sha : String → String) (t d v : Int)
    (embs? : Option (List E)) :
    ∀ (chunks : List ChunkDict) (i : Nat) (data : List (MRow E)),
      prepareData sha t d v embs? i chunks = some data →
      data.length = chunks.length ∧
      ∀ p c, chunks.get? p = some c →
        ∃ r, data.get? p = some r ∧
          r.tenant_id = t ∧ r.document_id = d ∧ r.chunk_version = v ∧
          r.content_hash = sha c.text ∧ r.text = pySlice c.text 65535 ∧
          r.source = pySlice c.source 512 ∧ r.metadata = c.metadata ∧
          r.chunk_index = c.chunk_index.getD (Int.ofNat (i + p)) := by
  intro chunks
  induction chunks with
  | nil =>
    intro i data h
    simp only [prepareData, Option.some.injEq] at h
    subst h
    exact ⟨rfl, by intro p c hc; simp at hc⟩
  | cons c cs ih =>
    intro i data h
    cases embs? with
    | none =>
      simp only [prepareData] at h
      cases hrest : prepareData sha t d v none (i + 1) cs with
      | none => rw [hrest] at h; exact absurd h (by simp)
      | some rest =>
        rw [hrest] at h
        simp only [Option.map_some', Option.some.injEq] at h
        obtain ⟨hlen, hfields⟩ := ih (i + 1) rest hrest
        subst h
        refine ⟨by simp [hlen], ?_⟩
        intro p cc hc
        cases p with
        | zero =>
          simp only [List.get?] at hc
          obtain rfl := Option.some.inj hc
          exact ⟨_, rfl, rfl, rfl, rfl, rfl, by with_reducible rfl,
            by with_reducible rfl, rfl, by simp⟩
        | succ p' =>
          simp only [List.get?] at hc
          obtain ⟨r, hr, hfs⟩ := hfields p' cc hc
          refine ⟨r, by simpa using hr, ?_⟩
          have heq : i + 1 + p' = i + (p' + 1) := by omega
          rw [heq] at hfs
          exact hfs
    | some es =>
      simp only [prepareData] at h
      cases hes : es.get? i with
      | none => rw [hes] at h; exact absurd h (by simp)
      | some e =>
        rw [hes] at h
        cases hrest : prepareData sha t d v (some es) (i + 1) cs with
        | none => rw [hrest] at h; exact absurd h (by simp)
        | some rest =>
          rw [hrest] at h
          simp only [Option.map_some', Option.some.injEq] at h
          obtain ⟨hlen, hfields⟩ := ih (i + 1) rest hrest
          subst h
          refine ⟨by simp [hlen], ?_⟩
          intro p cc hc
          cases p with
          | zero =>
            simp only [List.get?] at hc
            obtain rfl := Option.some.inj hc
            exact ⟨_, rfl, rfl, rfl, rfl, rfl, by with_reducible rfl,
              by with_reducible rfl, rfl, by simp⟩
          | succ p' =>
            simp only [List.get?] at hc
            obtain ⟨r, hr, hfs⟩ := hfields p' cc hc
            refine ⟨r, by simpa using hr, ?_⟩
            have heq : i + 1 + p' = i + (p' + 1) := by omega
            rw [heq] at hfs
            exact hfs

theorem prepareData_some (sha : String → String) (t d v : Int) (es : List E) :
    ∀ (chunks : List ChunkDict) (i : Nat),
      i + chunks.length ≤ es.length →
      ∃ data, prepareData sha t d v (some es) i chunks = some data := by
  intro chunks
  induction chunks with
  | nil => intro i _; exact ⟨[], rfl⟩
  | cons c cs ih =>
    intro i hle
    have hi : i < es.length := by simp at hle; omega
    have he := List.get?_eq_get hi
    obtain ⟨rest, hrest⟩ := ih (i + 1) (by simp at hle ⊢; omega)
    refine ⟨{ tenant_id := t, document_id := d,
              chunk_index := c.chunk_index.getD (Int.ofNat i),
              chunk_version := v, content_hash := sha c.text,
              text := pySlice c.text 65535, source := pySlice c.source 512,
              metadata := c.metadata, embedding := some (es.get ⟨i, hi⟩) } :: rest, ?_⟩
    simp only [prepareData, he, hrest, Option.map_some']

theorem processBatchItems_core (base : Int) (embs : Option (List E)) :
    ∀ (batch rs : List (MRow E)),
      processBatchItems base embs batch = some rs →
      rs.map MRow.core = batch.map MRow.core := by
  intro batch
  induction batch with
  | nil =>
    intro rs h
    simp only [processBatchItems, Option.some.injEq] at h
    subst h
    rfl
  | cons item rest ih =>
    intro rs h
    cases embs with
    | none =>
      simp only [processBatchItems] at h
      cases hr : processBatchItems base none rest with
      | none => rw [hr] at h; exact absurd h (by simp)
      | some rs' =>
        rw [hr] at h
        simp only [Option.map_some', Option.some.injEq] at h
        subst h
        simp [ih rs' hr]
    | some es =>
      simp only [processBatchItems] at h
      cases hn : npGet es (item.chunk_index - base) with
      | none => rw [hn] at h; exact absurd h (by simp)
      | some e =>
        rw [hn] at h
        cases hr : processBatchItems base (some es) rest with
        | none => rw [hr] at h; exact absurd h (by simp)
        | some rs' =>
          rw [hr] at h
          simp only [Option.map_some', Option.some.injEq] at h
          subst h
          simp only [List.map_cons, ih rs' hr, List.cons.injEq, and_true]
          simp [MRow.core]

theorem processBatchItems_contiguous (es : List E) :
    ∀ (batch : List (MRow E)) (base : Int) (k : Nat),
      (∀ p r, batch.get? p = some r → r.chunk_index = base + Int.ofNat (k + p)) →
      k + batch.length ≤ es.length →
      processBatchItems base (some es) batch
        = some (List.zipWith withEmb batch (es.drop k)) := by
  intro batch
  induction batch with
  | nil => intro base k _ _; simp [processBatchItems]
  | cons item rest ih =>
    intro base k hidx hlen
    have hitem : item.chunk_index = base + Int.ofNat k := by
      have := hidx 0 item rfl
      simpa using this
    have hk : k < es.length := by
      simp only [List.length_cons] at hlen
      omega
    have hnp : npGet es (item.chunk_index - base) = some (es.get ⟨k, hk⟩) := by
      rw [hitem]
      unfold npGet
      rw [if_pos (by simp only [Int.ofNat_eq_coe]; omega)]
      have h1 : (base + Int.ofNat k - base).toNat = k := by
        simp only [Int.ofNat_eq_coe]
        omega
      rw [h1]
      exact List.get?_eq_get hk
    have hrest := ih base (k + 1)
      (fun p r hp => by
        have h2 := hidx (p + 1) r (by simpa using hp)
        have h3 : k + (p + 1) = k + 1 + p := by omega
        rw [h2, h3])
      (by simp only [List.length_cons] at hlen; omega)
    simp only [processBatchItems, hnp, hrest, Option.map_some', Option.some.injEq]
    rw [List.drop_eq_get_cons hk]
    rfl

theorem insertBatchesAux_store (fuel : Nat) :
    ∀ (data : List (MRow E)) (embs : Option (List E)) (store : List (MRow E)),
      ∃ extra, (insertBatchesAux fuel data embs store).2 = store ++ extra ∧
        ∀ r ∈ extra, ∃ q ∈ data, MRow.core r = MRow.core q := by
  induction fuel with
  | zero =>
    intro data embs store
    cases data with
    | nil => exact ⟨[], by simp [insertBatchesAux], by simp⟩
    | cons a l => exact ⟨[], by simp [insertBatchesAux], by simp⟩
  | succ fuel ih =>
    intro data embs store
    cases data with
    | nil => exact ⟨[], by simp [insertBatchesAux], by simp⟩
    | cons first tail =>
      cases hpb : processBatchItems first.chunk_index (embs.map (List.take 1000))
          ((first :: tail).take 1000) with
      | none =>
        refine ⟨[], ?_, by simp⟩
        simp only [insertBatchesAux]
        rw [hpb]
        simp
      | some rows =>
        obtain ⟨extra', h1, h2⟩ := ih ((first :: tail).drop 1000)
          (embs.map (List.drop 1000)) (store ++ rows)
        have hrowsmem : ∀ r ∈ rows, ∃ q ∈ (first :: tail), MRow.core r = MRow.core q := by
          intro r hr
          have hcore := processBatchItems_core first.chunk_index
            (embs.map (List.take 1000)) _ rows hpb
          have : MRow.core r ∈ rows.map MRow.core := List.mem_map_of_mem _ hr
          rw [hcore] at this
          obtain ⟨q, hq, hqe⟩ := List.mem_map.mp this
          exact ⟨q, List.mem_of_mem_take hq, hqe.symm⟩
        refine ⟨rows ++ extra', ?_, ?_⟩
        · rcases hrec : insertBatchesAux fuel ((first :: tail).drop 1000)
              (embs.map (List.drop 1000)) (store ++ rows) with ⟨o, s⟩
          rw [hrec] at h1
          simp only at h1
          simp only [insertBatchesAux, hpb, hrec]
          cases o with
          | none => simp only; rw [h1, List.append_assoc]
          | some rest => simp only; rw [h1, List.append_assoc]
        · intro r hr
          rcases List.mem_append.mp hr with hr1 | hr2
          · exact hrowsmem r hr1
          · obtain ⟨q, hq, hqe⟩ := h2 r hr2
            exact ⟨q, List.mem_of_mem_drop hq, hqe⟩

theorem insertBatchesAux_fst (fuel : Nat) :
    ∀ (data : List (MRow E)) (embs : Option (List E)) (store store' : List (MRow E)),
      (insertBatchesAux fuel data embs store).1
        = (insertBatchesAux fuel data embs store').1 := by
  induction fuel with
  | zero =>
    intro data embs store store'
    cases data with
    | nil => rfl
    | cons a l => rfl
  | succ fuel ih =>
    intro data embs store store'
    cases data with
    | nil => rfl
    | cons first tail =>
      cases hpb : processBatchItems first.chunk_index (embs.map (List.take 1000))
          ((first :: tail).take 1000) with
      | none =>
        simp only [insertBatchesAux]
        rw [hpb]
      | some rows =>
        have hih := ih ((first :: tail).drop 1000) (embs.map (List.drop 1000))
          (store ++ rows) (store' ++ rows)
        rcases h1 : insertBatchesAux fuel ((first :: tail).drop 1000)
            (embs.map (List.drop 1000)) (store ++ rows) with ⟨o, s⟩
        rcases h2 : insertBatchesAux fuel ((first :: tail).drop 1000)
            (embs.map (List.drop 1000)) (store' ++ rows) with ⟨o2, s2⟩
        rw [h1, h2] at hih
        simp only at hih
        subst hih
        simp only [insertBatchesAux, hpb, h1, h2]
        cases o <;> rfl

theorem insertBatchesAux_some (fuel : Nat) :
    ∀ (data : List (MRow E)) (embs : Option (List E)) (store rows store' : List (MRow E)),
      data.length ≤ fuel →
      insertBatchesAux fuel data embs store = (some rows, store') →
      store' = store ++ rows ∧ rows.map MRow.core = data.map MRow.core := by
  induction fuel with
  | zero =>
    intro data embs store rows store' hle h
    cases data with
    | nil =>
      simp only [insertBatchesAux, Prod.mk.injEq, Option.some.injEq] at h
      obtain ⟨rfl, rfl⟩ := h
      simp
    | cons a l => simp at hle
  | succ fuel ih =>
    intro data embs store rows store' hle h
    cases data with
    | nil =>
      simp only [insertBatchesAux, Prod.mk.injEq, Option.some.injEq] at h
      obtain ⟨rfl, rfl⟩ := h
      simp
    | cons first tail =>
      cases hpb : processBatchItems first.chunk_index (embs.map (List.take 1000))
          ((first :: tail).take 1000) with
      | none =>
        simp only [insertBatchesAux, hpb] at h
        exact absurd (Prod.mk.injEq .. ▸ h).1 (by simp)
      | some rows1 =>
        cases hrec : insertBatchesAux fuel ((first :: tail).drop 1000)
            (embs.map (List.drop 1000)) (store ++ rows1) with
        | mk o s =>
          cases o with
          | none =>
            simp only [insertBatchesAux, hpb, hrec] at h
            exact absurd (Prod.mk.injEq .. ▸ h).1 (by simp)
          | some rest =>
            simp only [insertBatchesAux, hpb, hrec, Prod.mk.injEq, Option.some.injEq] at h
            obtain ⟨rfl, rfl⟩ := h
            obtain ⟨hs, hcores⟩ := ih ((first :: tail).drop 1000)
              (embs.map (List.drop 1000)) (store ++ rows1) rest s
              (by simp only [List.length_drop, List.length_cons] at hle ⊢; omega) hrec
            constructor
            · rw [hs, List.append_assoc]
            · have hpbcores := processBatchItems_core first.chunk_index
                (embs.map (List.take 1000)) _ rows1 hpb
              rw [List.map_append, hpbcores, hcores, ← List.map_append,
                List.take_append_drop]

theorem insertBatchesAux_contiguous :
    ∀ (fuel : Nat) (data : List (MRow E)) (es : List E) (store : List (MRow E)) (base : Int),
      data.length ≤ fuel →
      data.length = es.length →
      (∀ p r, data.get? p = some r → r.chunk_index = base + Int.ofNat p) →
      insertBatchesAux fuel data (some es) store
        = (some (List.zipWith withEmb data es),
           store ++ List.zipWith withEmb data es) := by
  intro fuel
  induction fuel with
  | zero =>
    intro data es store base hle hlen hidx
    cases data with
    | nil => simp [insertBatchesAux]
    | cons a l => simp at hle
  | succ fuel ih =>
    intro data es store base hle hlen hidx
    cases data with
    | nil =>
      have : es = [] := List.eq_nil_of_length_eq_zero (by simpa using hlen.symm)
      subst this
      simp [insertBatchesAux]
    | cons first tail =>
      have hbase : first.chunk_index = base := by
        have := hidx 0 first rfl
        simpa using this
      have hpb : processBatchItems first.chunk_index (some (es.take 1000))
          ((first :: tail).take 1000)
            = some (List.zipWith withEmb ((first :: tail).take 1000)
                ((es.take 1000).drop 0)) := by
        rw [hbase]
        refine processBatchItems_contiguous (es.take 1000)
          ((first :: tail).take 1000) base 0 ?_ ?_
        · intro p r hp
          have hplt : p < ((first :: tail).take 1000).length := by
            rcases List.get?_eq_some.mp hp with ⟨hh, -⟩
            exact hh
          have hp1000 : p < 1000 := by
            simp only [List.length_take] at hplt
            omega
          rw [List.get?_take hp1000] at hp
          have := hidx p r hp
          simpa using this
        · simp only [Nat.zero_add, List.length_take, hlen]
          exact Nat.le_refl _
      have hrec := ih ((first :: tail).drop 1000) (es.drop 1000)
        (store ++ List.zipWith withEmb ((first :: tail).take 1000) (es.take 1000))
        (base + Int.ofNat 1000)
        (by simp only [List.length_drop, List.length_cons] at hle ⊢; omega)
        (by simp only [List.length_drop]; omega)
        (by
          intro p r hp
          rw [List.get?_drop] at hp
          have h2 := hidx (1000 + p) r hp
          have h3 : Int.ofNat (1000 + p) = Int.ofNat 1000 + Int.ofNat p := by
            simp only [Int.ofNat_eq_coe]
            push_cast
            ring
          rw [h2, h3, Int.add_assoc])
      have hzipsplit : List.zipWith withEmb (first :: tail) es
          = List.zipWith withEmb ((first :: tail).take 1000) (es.take 1000)
            ++ List.zipWith withEmb ((first :: tail).drop 1000) (es.drop 1000) := by
        rw [← List.take_zipWith, ← List.drop_zipWith, List.take_append_drop]
      rw [List.drop_zero] at hpb
      simp only [insertBatchesAux, Option.map_some', hpb, hrec]
      rw [hzipsplit, List.append_assoc]

theorem insert_chunks_fields (sha : String → String) (t d : Int)
    (chunks : List ChunkDict) (v : Int) (es : List E)
    (store rows store' : List (MRow E))
    (h : insert_chunks sha t d chunks v (some es) store = (some rows, store')) :
    store' = store ++ rows ∧ rows.length = chunks.length ∧
    ∀ p c, chunks.get? p = some c →
      ∃ r, rows.get? p = some r ∧ r.tenant_id = t ∧ r.document_id = d ∧
        r.chunk_version = v ∧ r.content_hash = sha c.text ∧
        r.text = pySlice c.text 65535 ∧ r.source = pySlice c.source 512 ∧
        r.metadata = c.metadata ∧ r.chunk_index = c.chunk_index.getD (Int.ofNat p) := by
  unfold insert_chunks at h
  cases hprep : prepareData sha t d v (some es) 0 chunks with
  | none =>
    rw [hprep] at h
    exact absurd (Prod.mk.injEq .. ▸ h).1 (by simp)
  | some data =>
    rw [hprep] at h
    obtain ⟨hstore, hcores⟩ := insertBatchesAux_some data.length data (some es)
      store rows store' (Nat.le_refl _) h
    obtain ⟨hdlen, hfields⟩ := prepareData_fields sha t d v (some es) chunks 0 data hprep
    have hrlen : rows.length = data.length := by
      have := congrArg List.length hcores
      simpa using this
    refine ⟨hstore, by omega, ?_⟩
    intro p c hc
    obtain ⟨rd, hrd, hf1, hf2, hf3, hf4, hf5, hf6, hf7, hf8⟩ := hfields p c hc
    have hmap : (rows.map MRow.core).get? p = (data.map MRow.core).get? p := by
      rw [hcores]
    rw [List.get?_map, List.get?_map, hrd] at hmap
    cases hrp : rows.get? p with
    | none => rw [hrp] at hmap; simp at hmap
    | some r =>
      rw [hrp] at hmap
      simp only [Option.map_some', Option.some.injEq] at hmap
      obtain ⟨g1, g2, g3, g4, g5, g6, g7, g8⟩ := core_fields hmap
      refine ⟨r, rfl, g1.trans hf1, g2.trans hf2, g4.trans hf3, g5.trans hf4,
        g6.trans hf5, g7.trans hf6, g8.trans hf7, ?_⟩
      rw [g3, hf8]
      simp

/-- A string longer than the truncation limit is changed by it. -/
theorem take_ne_of_long {s : String} (h : 65535 < s.length) : pySlice s 65535 ≠ s := by
  intro heq
  have hlen := congrArg String.length heq
  have h1 : (pySlice s 65535).length = (s.data.take 65535).length := rfl
  rw [h1, List.length_take] at hlen
  have h2 : s.length = s.data.length := rfl
  rw [h2] at h hlen
  have h3 : 65535 ⊓ s.data.length ≤ 65535 := inf_le_left
  omega

/-! ### C10 -/

/-- C10: every row inserted by `insert_chunks` stores the chunk's text
truncated to 65535 characters and its source truncated to 512
characters, while `content_hash` is the digest of the full untruncated
text — so for texts longer than 65535 characters the persisted hash is
the hash of a string that differs from the persisted text. -/
theorem c10_truncated_text_hashed_untruncated (sha : String → String) (t d : Int)
    (chunks : List ChunkDict) (v : Int) (es : List E)
    (store rows store' : List (MRow E))
    (h : insert_chunks sha t d chunks v (some es) store = (some rows, store')) :
    store' = store ++ rows ∧ rows.length = chunks.length ∧
    ∀ p c, chunks.get? p = some c →
      ∃ r, rows.get? p = some r ∧
        r.text = pySlice c.text 65535 ∧ r.source = pySlice c.source 512 ∧
        r.content_hash = sha c.text ∧
        (65535 < c.text.length → r.text ≠ c.text) := by
  obtain ⟨h1, h2, h3⟩ := insert_chunks_fields sha t d chunks v es store rows store' h
  refine ⟨h1, h2, ?_⟩
  intro p c hc
  obtain ⟨r, hr, -, -, -, hhash, htext, hsource, -, -⟩ := h3 p c hc
  refine ⟨r, hr, htext, hsource, hhash, ?_⟩
  intro hlong
  rw [htext]
  exact take_ne_of_long hlong

/-- C10 witness row: the single row inserted for one chunk. -/
def w10row : MRow Nat :=
  { tenant_id := 1, document_id := 2, chunk_index := 0, chunk_version := 3,
    content_hash := "a", text := pySlice "a" 65535, source := pySlice "s" 512,
    metadata := "m", embedding := some 5 }

/-- Witness for C10 at a concrete single-chunk insertion. -/
theorem c10_truncation_witness :
    ∃ r, [w10row].get? 0 = some r ∧
      r.text = pySlice "a" 65535 ∧ r.source = pySlice "s" 512 ∧
      r.content_hash = (fun s => s) "a" ∧
      (65535 < "a".length → r.text ≠ "a") :=
  (c10_truncated_text_hashed_untruncated (fun s => s) 1 2
      [{ text := "a", source := "s", metadata := "m", chunk_index := some 0 }] 3
      [5] [] [w10row] [w10row] rfl).2.2 0
    { text := "a", source := "s", metadata := "m", chunk_index := some 0 } rfl

/-! ### C7 -/

/-- C7 (code_bug evaluation): `insert_chunks` aligns embeddings to
chunks through the offset `chunk_index - batch[0].chunk_index`, not the
list position; for the non-contiguous chunk_index assignment [0, 2, 1]
(three chunks, three embedding rows 10, 11, 12) the chunk at list
position 1 is stored with embedding row 2 and the chunk at position 2
with embedding row 1, contradicting the claim that the row for the chunk
at position i carries embedding row i. -/
theorem c7_embedding_misalignment :
    ((insert_chunks (fun s => s) 1 1
        [{ text := "a", source := "s", metadata := "m", chunk_index := some 0 },
         { text := "b", source := "s", metadata := "m", chunk_index := some 2 },
         { text := "c", source := "s", metadata := "m", chunk_index := some 1 }]
        1 (some [10, 11, 12]) ([] : List (MRow Nat))).2.map
      (fun r => (r.chunk_index, r.embedding)))
      = [(0, some 10), (2, some 12), (1, some 11)] := by decide

/-! ### C1 -/

/-- C1 scenario: document 1 of tenant 1 has three stored chunks with
hashes "A", "B", "C" (version 1); re-ingestion yields texts "X", "B",
"Z", i.e. chunks 0 and 2 changed.  The digest is modelled as the
identity (distinct texts, distinct hashes), the splitter yields one
chunk per loaded document, and the embedding backend returns one row per
text. -/
def deltaRow (ci : Int) (h : String) : MRow Nat :=
  { tenant_id := 1, document_id := 1, chunk_index := ci, chunk_version := 1,
    content_hash := h, text := h, source := "s", metadata := "m", embedding := some 0 }

/-- Stored rows before the C1 re-ingestion. -/
def deltaStore : List (MRow Nat) := [deltaRow 0 "A", deltaRow 1 "B", deltaRow 2 "C"]

/-- Document table before the C1 re-ingestion. -/
def deltaDocs : List DocRecord :=
  [{ id := 1, status := "pending", chunk_count := 3, version := 1 }]

/-- Queue item for the C1 re-ingestion. -/
def deltaInfo : DocInfo :=
  { tenant_id := 1, document_id := 1, file_type := "txt",
    file_path := some "f", source_url := none }

/-- Loader for the C1 re-ingestion: three one-chunk documents with
texts "X", "B", "Z". -/
def deltaLoader : DocInfo → Except String (List LoadedDoc) := fun _ =>
  .ok [{ text := "X", source := "s", metadata := "m" },
       { text := "B", source := "s", metadata := "m" },
       { text := "Z", source := "s", metadata := "m" }]

/-- C1 (code_bug evaluation): re-ingesting a document where exactly
chunks 0 and 2 of 3 changed (M = 2 < N = 3) embeds the two changed
chunks in one batch call, but then `insert_chunks` raises an IndexError
(embedding offset 2 into a 2-row matrix), so nothing is inserted and the
document is marked `failed` with chunk_count and version untouched —
instead of the claimed `ready` with chunk_count 5 and version 2. -/
theorem c1_partial_reingest_marked_failed :
    processDocument (fun s => s) (fun s => [s]) (fun ts => List.range ts.length)
      deltaLoader deltaInfo { store := deltaStore, docs := deltaDocs, embedCalls := 0 }
    = { store := deltaStore,
        docs := [{ id := 1, status := "failed", chunk_count := 3, version := 1 }],
        embedCalls := 1 } := by decide

/-! ### Lemmas about chunking, document records and stats -/

/-- The running `chunk_index` assigned by `_chunk_documents` is exactly
the global list position. -/
theorem chunkDocuments_chunk_index (split : String → List String) (docs : List LoadedDoc) :
    ∀ p c, (chunkDocuments split docs).get? p = some c →
      c.chunk_index = some (Int.ofNat p) := by
  unfold chunkDocuments
  suffices h : ∀ (docs : List LoadedDoc) (acc : List ChunkDict),
      (∀ p c, acc.get? p = some c → c.chunk_index = some (Int.ofNat p)) →
      ∀ p c, (docs.foldl (chunkStep split) acc).get? p = some c →
        c.chunk_index = some (Int.ofNat p) by
    exact h docs [] (by intro p c hc; simp at hc)
  intro docs
  induction docs with
  | nil => intro acc hacc; exact hacc
  | cons doc ds ih =>
    intro acc hacc
    simp only [List.foldl_cons]
    apply ih
    intro p c hc
    unfold chunkStep at hc
    rcases Nat.lt_or_ge p acc.length with hlt | hge
    · rw [List.get?_append hlt] at hc
      exact hacc p c hc
    · rw [List.get?_append_right hge, List.get?_map, List.get?_enum] at hc
      cases hg : (split doc.text).get? (p - acc.length) with
      | none => rw [hg] at hc; simp at hc
      | some txt =>
        rw [hg] at hc
        simp only [Option.map_some', Option.some.injEq] at hc
        rw [← hc]
        simp only [Option.some.injEq]
        congr 1
        omega

theorem find?_updateDoc (docs : List DocRecord) (id : Int) (f : DocRecord → DocRecord)
    (hid : ∀ r, (f r).id = r.id) (j : Int) :
    (updateDoc docs id f).find? (fun d => d.id == j)
      = (docs.find? (fun d => d.id == j)).map
          (fun r => if r.id == id then f r else r) := by
  induction docs with
  | nil => rfl
  | cons d ds ih =>
    simp only [updateDoc, List.map_cons] at ih ⊢
    by_cases hd : (d.id == j) = true
    · have hmap : (((if d.id == id then f d else d).id == j)) = true := by
        by_cases hdi : (d.id == id) = true
        · simpa [hdi, hid d] using hd
        · simpa [hdi] using hd
      rw [@List.find?_cons_of_pos _ (fun d : DocRecord => d.id == j) _ _ hmap,
        @List.find?_cons_of_pos _ (fun d : DocRecord => d.id == j) _ _ hd]
      rfl
    · have hmap : ¬(((if d.id == id then f d else d).id == j) = true) := by
        by_cases hdi : (d.id == id) = true
        · simpa [hdi, hid d] using hd
        · simpa [hdi] using hd
      rw [@List.find?_cons_of_neg _ (fun d : DocRecord => d.id == j) _ _ hmap,
        @List.find?_cons_of_neg _ (fun d : DocRecord => d.id == j) _ _ hd]
      exact ih

theorem statusOf_updateDoc_self (docs : List DocRecord) (id : Int)
    (f : DocRecord → DocRecord) (s : String)
    (hid : ∀ r, (f r).id = r.id) (hs : ∀ r, (f r).status = s) :
    statusOf (updateDoc docs id f) id
      = (docs.find? (fun d => d.id == id)).map (fun _ => s) := by
  unfold statusOf
  rw [find?_updateDoc docs id f hid id]
  cases hf : docs.find? (fun d => d.id == id) with
  | none => rfl
  | some r =>
    have hr : r.id = id := by simpa using List.find?_some hf
    simp [hr, hs r]

theorem statusOf_updateDoc_other (docs : List DocRecord) (id : Int)
    (f : DocRecord → DocRecord) (hid : ∀ r, (f r).id = r.id)
    (j : Int) (hne : j ≠ id) :
    statusOf (updateDoc docs id f) j = statusOf docs j := by
  unfold statusOf
  rw [find?_updateDoc docs id f hid j]
  cases hf : docs.find? (fun d => d.id == j) with
  | none => rfl
  | some r =>
    have hr : r.id = j := by simpa using List.find?_some hf
    have hne2 : ¬(r.id = id) := by rw [hr]; exact hne
    simp [hne2]

theorem versionOf_updateDoc (docs : List DocRecord) (id : Int)
    (f : DocRecord → DocRecord) (hid : ∀ r, (f r).id = r.id)
    (hv : ∀ r, (f r).version = r.version) (j : Int) :
    versionOf (updateDoc docs id f) j = versionOf docs j := by
  unfold versionOf
  rw [find?_updateDoc docs id f hid j]
  cases hf : docs.find? (fun d => d.id == j) with
  | none => rfl
  | some r =>
    by_cases hdi : r.id = id
    · simp [hdi, hv r]
    · simp [hdi]

theorem chunkCountOf_updateDoc (docs : List DocRecord) (id : Int)
    (f : DocRecord → DocRecord) (hid : ∀ r, (f r).id = r.id)
    (hv : ∀ r, (f r).chunk_count = r.chunk_count) (j : Int) :
    chunkCountOf (updateDoc docs id f) j = chunkCountOf docs j := by
  unfold chunkCountOf
  rw [find?_updateDoc docs id f hid j]
  cases hf : docs.find? (fun d => d.id == j) with
  | none => rfl
  | some r =>
    by_cases hdi : r.id = id
    · simp [hdi, hv r]
    · simp [hdi]

theorem find?_isSome_updateDoc (docs : List DocRecord) (id : Int)
    (f : DocRecord → DocRecord) (hid : ∀ r, (f r).id = r.id) (j : Int) :
    ((updateDoc docs id f).find? (fun d => d.id == j)).isSome
      = (docs.find? (fun d => d.id == j)).isSome := by
  rw [find?_updateDoc docs id f hid j]
  cases docs.find? (fun d => d.id == j) <;> rfl

theorem stats_of_empty {store : List (MRow E)} {t d : Int}
    (h : store.filter (fun r => evalExpr r (docExpr t d)) = []) :
    get_document_stats store t d = (0, 0) := by
  unfold get_document_stats
  rw [h]
  rfl

theorem stats_count_pos {store : List (MRow E)} {t d : Int}
    (h : store.filter (fun r => evalExpr r (docExpr t d)) ≠ []) :
    (get_document_stats store t d).1
      = (store.filter (fun r => evalExpr r (docExpr t d))).length ∧
    0 < (get_document_stats store t d).1 := by
  unfold get_document_stats
  rw [if_neg (by simpa [List.isEmpty_iff] using h)]
  refine ⟨rfl, ?_⟩
  simpa using List.length_pos.mpr h

/-- Zipping a list with its own hash images pairs each chunk with its
hash. -/
theorem zip_hash_eq (g : ChunkDict → String) :
    ∀ (chunks : List ChunkDict),
      chunks.zip (chunks.map g) = chunks.map (fun c => (c, g c)) := by
  intro chunks
  induction chunks with
  | nil => rfl
  | cons c cs ih => simp only [List.map_cons, List.zip_cons_cons, ih]

theorem mem_zipWith_withEmb :
    ∀ (l : List (MRow E)) (l' : List E) (r : MRow E),
      r ∈ List.zipWith withEmb l l' → ∃ q, q ∈ l ∧ ∃ e, r = withEmb q e := by
  intro l
  induction l with
  | nil => intro l' r h; simp at h
  | cons a as ih =>
    intro l' r h
    cases l' with
    | nil => simp at h
    | cons b bs =>
      rw [List.zipWith_cons_cons, List.mem_cons] at h
      rcases h with rfl | h
      · exact ⟨a, List.mem_cons_self a as, b, rfl⟩
      · obtain ⟨q, hq, e, he⟩ := ih bs r h
        exact ⟨q, List.mem_cons_of_mem _ hq, e, he⟩

theorem map_zipWith_withEmb {α : Type} (g : MRow E → α)
    (hg : ∀ r e, g (withEmb r e) = g r) :
    ∀ (l : List (MRow E)) (l' : List E), l.length ≤ l'.length →
      (List.zipWith withEmb l l').map g = l.map g := by
  intro l
  induction l with
  | nil => intro l' _; rfl
  | cons a as ih =>
    intro l' hle
    cases l' with
    | nil => simp at hle
    | cons b bs =>
      rw [List.zipWith_cons_cons, List.map_cons, List.map_cons, hg a b,
        ih bs (by simpa using hle)]

/-- `insert_chunks` succeeds and appends one row per chunk whenever the
chunk indices are exactly the list positions (the fresh-document case)
and one embedding row is supplied per chunk. -/
theorem insert_chunks_contiguous (sha : String → String) (t d v : Int)
    (chunks : List ChunkDict) (es : List E) (store : List (MRow E))
    (hlen : chunks.length = es.length)
    (hidx : ∀ p c, chunks.get? p = some c → c.chunk_index = some (Int.ofNat p)) :
    ∃ rows, insert_chunks sha t d chunks v (some es) store = (some rows, store ++ rows) ∧
      rows.length = chunks.length ∧
      rows.map (fun r => r.content_hash) = chunks.map (fun c => sha c.text) ∧
      ∀ r ∈ rows, r.tenant_id = t ∧ r.document_id = d := by
  obtain ⟨data, hprep⟩ := prepareData_some sha t d v es chunks 0 (by omega)
  obtain ⟨hdlen, hfields⟩ := prepareData_fields sha t d v (some es) chunks 0 data hprep
  have hdata_idx : ∀ p r, data.get? p = some r → r.chunk_index = 0 + Int.ofNat p := by
    intro p r hr
    have hplt : p < chunks.length := by
      rcases List.get?_eq_some.mp hr with ⟨hh, -⟩
      omega
    have hc := List.get?_eq_get hplt
    obtain ⟨r2, hr2, -, -, -, -, -, -, -, hidx2⟩ := hfields p _ hc
    rw [hr] at hr2
    obtain rfl := Option.some.inj hr2
    rw [hidx2, hidx p _ hc]
    simp
  have hib := insertBatchesAux_contiguous data.length data es store 0
    (Nat.le_refl _) (by omega) hdata_idx
  refine ⟨List.zipWith withEmb data es, ?_, ?_, ?_, ?_⟩
  · unfold insert_chunks
    rw [hprep]
    exact hib
  · rw [List.length_zipWith]
    omega
  · rw [map_zipWith_withEmb (fun r => r.content_hash) (fun _ _ => rfl) data es (by omega)]
    apply List.ext_get?
    intro n
    rw [List.get?_map, List.get?_map]
    rcases Nat.lt_or_ge n chunks.length with hlt | hge
    · have hc := List.get?_eq_get hlt
      obtain ⟨r2, hr2, -, -, -, hhash, -⟩ := hfields n _ hc
      rw [hc, hr2]
      simp [hhash]
    · have h1 : data.get? n = none := List.get?_eq_none.mpr (by omega)
      have h2 : chunks.get? n = none := List.get?_eq_none.mpr (by omega)
      rw [h1, h2]
      rfl
  · intro r hr
    obtain ⟨q, hq, e, rfl⟩ := mem_zipWith_withEmb data es r hr
    obtain ⟨p, hp⟩ := List.mem_iff_get?.mp hq
    have hplt : p < chunks.length := by
      rcases List.get?_eq_some.mp hp with ⟨hh, -⟩
      omega
    have hc := List.get?_eq_get hplt
    obtain ⟨r2, hr2, ht, hd2, -⟩ := hfields p _ hc
    rw [hp] at hr2
    obtain rfl := Option.some.inj hr2
    exact ⟨ht, hd2⟩

/-- When every chunk hash is filtered out as already stored,
`_process_document` takes the no-change branch: status `ready`, nothing
else touched. -/
theorem processDocument_eq_ready (sha : String → String) (split : String → List String)
    (embedBatch : List String → List E)
    (loader : DocInfo → Except String (List LoadedDoc))
    (info : DocInfo) (st : IngestState E) (ldocs : List LoadedDoc)
    (hload : loader info = Except.ok ldocs)
    (hnil : ((chunkDocuments split ldocs).zip
        ((chunkDocuments split ldocs).map
          (fun c => compute_content_hash sha c.text))).filter
        (fun p => !((if 0 < (get_document_stats st.store info.tenant_id
                                info.document_id).1
                     then existingHashesQuery st.store info.tenant_id info.document_id
                     else ([] : List String)).contains p.2)) = []) :
    processDocument sha split embedBatch loader info st
      = { st with docs := (updateDoc st.docs info.document_id
            (fun dd => { dd with status := "ready" })) } := by
  simp only [processDocument, hload]
  rw [hnil]
  simp

/-- On a fresh document (no stored rows for the (tenant, document) pair)
with a nonempty chunk list, `_process_document` embeds everything in one
batch call and inserts one row per chunk with version 1. -/
theorem processDocument_eq_insert (sha : String → String) (split : String → List String)
    (embedBatch : List String → List E)
    (loader : DocInfo → Except String (List LoadedDoc))
    (info : DocInfo) (st : IngestState E) (ldocs : List LoadedDoc)
    (hload : loader info = Except.ok ldocs)
    (hfresh : st.store.filter
      (fun r => evalExpr r (docExpr info.tenant_id info.document_id)) = [])
    (hne : chunkDocuments split ldocs ≠ [])
    (hembed : ∀ ts, (embedBatch ts).length = ts.length) :
    ∃ rows,
      processDocument sha split embedBatch loader info st
        = { store := st.store ++ rows,
            docs := (updateDoc st.docs info.document_id
              (fun dd => { dd with
                status := "ready"
                chunk_count := Int.ofNat 0 + Int.ofNat (chunkDocuments split ldocs).length
                version := (0 : Int) + 1 })),
            embedCalls := st.embedCalls + 1 } ∧
        rows ≠ [] ∧
        rows.map (fun r => r.content_hash)
          = (chunkDocuments split ldocs).map (fun c => compute_content_hash sha c.text) ∧
        (∀ r ∈ rows, r.tenant_id = info.tenant_id ∧ r.document_id = info.document_id) := by
  have hlen : (chunkDocuments split ldocs).length
      = (embedBatch ((chunkDocuments split ldocs).map (fun c => c.text))).length := by
    rw [hembed, List.length_map]
  obtain ⟨rows, hins, hrlen, hmap, hmem⟩ := insert_chunks_contiguous
    sha info.tenant_id info.document_id ((0 : Int) + 1)
    (chunkDocuments split ldocs)
    (embedBatch ((chunkDocuments split ldocs).map (fun c => c.text))) st.store hlen
    (chunkDocuments_chunk_index split ldocs)
  have hexist : (if 0 < (get_document_stats st.store info.tenant_id
                           info.document_id).1
                 then existingHashesQuery st.store info.tenant_id info.document_id
                 else ([] : List String)) = [] := by
    rw [stats_of_empty hfresh]
    simp
  have hpredtrue : (fun p : ChunkDict × String => !(([] : List String).contains p.2))
      = fun _ => true := by
    funext p
    rfl
  have hnc : (((chunkDocuments split ldocs).zip
      ((chunkDocuments split ldocs).map
        (fun c => compute_content_hash sha c.text))).filter
      (fun p => !((if 0 < (get_document_stats st.store info.tenant_id
                              info.document_id).1
                   then existingHashesQuery st.store info.tenant_id info.document_id
                   else ([] : List String)).contains p.2))).map Prod.fst
      = chunkDocuments split ldocs := by
    rw [hexist, hpredtrue, List.filter_true]
    exact List.map_fst_zip _ _ (by rw [List.length_map])
  refine ⟨rows, ?_, ?_, hmap, hmem⟩
  · simp only [processDocument, hload]
    rw [hnc]
    rw [if_neg (by simpa [List.isEmpty_iff] using hne)]
    rw [stats_of_empty hfresh]
    simp only []
    rw [hins]
  · intro hrows
    apply hne
    have : rows.length = 0 := by rw [hrows]; rfl
    have h2 : (chunkDocuments split ldocs).length = 0 := by omega
    exact List.eq_nil_of_length_eq_zero h2

theorem evalExpr_docExpr (r : MRow E) (t d : Int) :
    evalExpr r (docExpr t d) = ((r.tenant_id == t) && (r.document_id == d)) := rfl

/-! ### C2 -/

/-- C2: a document all of whose chunk hashes are already stored for its
(tenant, document) pair is marked `ready` with no version bump, no
embedding call and no store mutation; consequently ingesting an
unchanged document twice (starting from a fresh document) leaves version
and chunk_count unchanged and makes zero embedding calls on the second
pass. -/
theorem c2_unchanged_reingest_noop (sha : String → String) (split : String → List String)
    (embedBatch : List String → List E)
    (loader : DocInfo → Except String (List LoadedDoc))
    (info : DocInfo) (st : IngestState E) (ldocs : List LoadedDoc)
    (hload : loader info = Except.ok ldocs)
    (hembed : ∀ ts, (embedBatch ts).length = ts.length) :
    ((∀ c ∈ chunkDocuments split ldocs,
        compute_content_hash sha c.text
          ∈ existingHashesQuery st.store info.tenant_id info.document_id) →
      processDocument sha split embedBatch loader info st
        = { st with docs := (updateDoc st.docs info.document_id
              (fun dd => { dd with status := "ready" })) }) ∧
    (st.store.filter (fun r => evalExpr r (docExpr info.tenant_id info.document_id)) = [] →
      ∀ st1 st2, st1 = processDocument sha split embedBatch loader info st →
        st2 = processDocument sha split embedBatch loader info st1 →
        st2.store = st1.store ∧ st2.embedCalls = st1.embedCalls ∧
        versionOf st2.docs info.document_id = versionOf st1.docs info.document_id ∧
        chunkCountOf st2.docs info.document_id
          = chunkCountOf st1.docs info.document_id) := by
  constructor
  · intro hall
    apply processDocument_eq_ready sha split embedBatch loader info st ldocs hload
    rw [List.filter_eq_nil_iff]
    intro pr hpr
    rw [zip_hash_eq] at hpr
    obtain ⟨c, hc, rfl⟩ := List.mem_map.mp hpr
    by_cases hpos : 0 < (get_document_stats st.store info.tenant_id info.document_id).1
    · rw [if_pos hpos]
      have hmemq := hall c hc
      simp [hmemq]
    · have hempty : st.store.filter
          (fun r => evalExpr r (docExpr info.tenant_id info.document_id)) = [] := by
        by_contra hne2
        exact hpos (stats_count_pos hne2).2
      have hq : existingHashesQuery st.store info.tenant_id info.document_id = [] := by
        unfold existingHashesQuery
        rw [hempty]
        rfl
      have h2 := hall c hc
      rw [hq] at h2
      simp at h2
  · intro hfresh st1 st2 h1 h2
    by_cases hch : chunkDocuments split ldocs = []
    · have hnil0 : ∀ (s : IngestState E),
          ((chunkDocuments split ldocs).zip
            ((chunkDocuments split ldocs).map
              (fun c => compute_content_hash sha c.text))).filter
            (fun p => !((if 0 < (get_document_stats s.store info.tenant_id
                                    info.document_id).1
                         then existingHashesQuery s.store info.tenant_id info.document_id
                         else ([] : List String)).contains p.2)) = [] := by
        intro s
        rw [hch]
        rfl
      have e1 := processDocument_eq_ready sha split embedBatch loader info st ldocs
        hload (hnil0 st)
      subst h1 h2
      rw [e1]
      have e2 := processDocument_eq_ready sha split embedBatch loader info
        { st with docs := (updateDoc st.docs info.document_id
            (fun dd => { dd with status := "ready" })) } ldocs hload (hnil0 _)
      rw [e2]
      exact ⟨rfl, rfl,
        versionOf_updateDoc _ info.document_id
          (fun dd => { dd with status := "ready" }) (fun r => rfl) (fun r => rfl)
          info.document_id,
        chunkCountOf_updateDoc _ info.document_id
          (fun dd => { dd with status := "ready" }) (fun r => rfl) (fun r => rfl)
          info.document_id⟩
    · obtain ⟨rows, e1, hrne, hmap, hmem⟩ := processDocument_eq_insert sha split
        embedBatch loader info st ldocs hload hfresh hch hembed
      subst h1 h2
      rw [e1]
      have hfilters : (st.store ++ rows).filter
          (fun r => evalExpr r (docExpr info.tenant_id info.document_id)) = rows := by
        rw [List.filter_append, hfresh, List.nil_append]
        apply List.filter_eq_self.mpr
        intro r hr
        obtain ⟨ht, hd⟩ := hmem r hr
        simp [evalExpr_docExpr, ht, hd]
      have hstats1 : 0 < (get_document_stats (st.store ++ rows) info.tenant_id
          info.document_id).1 :=
        (stats_count_pos (by rw [hfilters]; exact hrne)).2
      have hquery : existingHashesQuery (st.store ++ rows) info.tenant_id info.document_id
          = (chunkDocuments split ldocs).map (fun c => compute_content_hash sha c.text) := by
        unfold existingHashesQuery
        rw [hfilters, hmap]
      have e2 := processDocument_eq_ready sha split embedBatch loader info
        { store := st.store ++ rows,
          docs := (updateDoc st.docs info.document_id
            (fun dd => { dd with
              status := "ready"
              chunk_count := Int.ofNat 0 + Int.ofNat (chunkDocuments split ldocs).length
              version := (0 : Int) + 1 })),
          embedCalls := st.embedCalls + 1 } ldocs hload ?hnil2
      case hnil2 =>
        rw [List.filter_eq_nil_iff]
        intro pr hpr
        rw [zip_hash_eq] at hpr
        obtain ⟨c, hc, rfl⟩ := List.mem_map.mp hpr
        rw [if_pos hstats1, hquery]
        have : compute_content_hash sha c.text
            ∈ (chunkDocuments split ldocs).map (fun c => compute_content_hash sha c.text) :=
          List.mem_map_of_mem _ hc
        simp [this]
      rw [e2]
      exact ⟨rfl, rfl,
        versionOf_updateDoc _ info.document_id
          (fun dd => { dd with status := "ready" }) (fun r => rfl) (fun r => rfl)
          info.document_id,
        chunkCountOf_updateDoc _ info.document_id
          (fun dd => { dd with status := "ready" }) (fun r => rfl) (fun r => rfl)
          info.document_id⟩

/-- C2 witness scenario: a fresh two-chunk document ingested twice. -/
def c2Loader : DocInfo → Except String (List LoadedDoc) := fun _ =>
  .ok [{ text := "X", source := "s", metadata := "m" },
       { text := "Y", source := "s", metadata := "m" }]

/-- C2 witness queue item. -/
def c2Info : DocInfo :=
  { tenant_id := 1, document_id := 1, file_type := "txt",
    file_path := some "f", source_url := none }

/-- C2 witness initial state: empty store, one pending document. -/
def c2St : IngestState Nat :=
  { store := [],
    docs := [{ id := 1, status := "pending", chunk_count := 0, version := 0 }],
    embedCalls := 0 }

/-- Witness for C2: the second pass over the witness scenario leaves
store, embedding-call count, version and chunk_count unchanged. -/
theorem c2_noop_witness :
    (processDocument (fun s => s) (fun s => [s]) (fun ts => List.range ts.length)
        c2Loader c2Info
        (processDocument (fun s => s) (fun s => [s]) (fun ts => List.range ts.length)
          c2Loader c2Info c2St)).store
      = (processDocument (fun s => s) (fun s => [s]) (fun ts => List.range ts.length)
          c2Loader c2Info c2St).store ∧
    (processDocument (fun s => s) (fun s => [s]) (fun ts => List.range ts.length)
        c2Loader c2Info
        (processDocument (fun s => s) (fun s => [s]) (fun ts => List.range ts.length)
          c2Loader c2Info c2St)).embedCalls
      = (processDocument (fun s => s) (fun s => [s]) (fun ts => List.range ts.length)
          c2Loader c2Info c2St).embedCalls ∧
    versionOf (processDocument (fun s => s) (fun s => [s])
        (fun ts => List.range ts.length) c2Loader c2Info
        (processDocument (fun s => s) (fun s => [s]) (fun ts => List.range ts.length)
          c2Loader c2Info c2St)).docs c2Info.document_id
      = versionOf (processDocument (fun s => s) (fun s => [s])
          (fun ts => List.range ts.length) c2Loader c2Info c2St).docs
          c2Info.document_id ∧
    chunkCountOf (processDocument (fun s => s) (fun s => [s])
        (fun ts => List.range ts.length) c2Loader c2Info
        (processDocument (fun s => s) (fun s => [s]) (fun ts => List.range ts.length)
          c2Loader c2Info c2St)).docs c2Info.document_id
      = chunkCountOf (processDocument (fun s => s) (fun s => [s])
          (fun ts => List.range ts.length) c2Loader c2Info c2St).docs
          c2Info.document_id :=
  (c2_unchanged_reingest_noop (fun s => s) (fun s => [s])
      (fun ts => List.range ts.length) c2Loader c2Info c2St _ rfl
      (fun ts => List.length_range ts.length)).2 (by decide) _ _ rfl rfl

/-! ### Lemmas towards C8: per-document isolation inside a batch -/

theorem prepareData_mem (sha : String → String) (t d v : Int) (embs? : Option (List E))
    (chunks : List ChunkDict) (i : Nat) (data : List (MRow E))
    (hprep : prepareData sha t d v embs? i chunks = some data) :
    ∀ r ∈ data, r.tenant_id = t ∧ r.document_id = d := by
  intro r hr
  obtain ⟨hdlen, hfields⟩ := prepareData_fields sha t d v embs? chunks i data hprep
  obtain ⟨p, hp⟩ := List.mem_iff_get?.mp hr
  have hplt : p < chunks.length := by
    rcases List.get?_eq_some.mp hp with ⟨hh, -⟩
    omega
  have hc := List.get?_eq_get hplt
  obtain ⟨r2, hr2, ht, hd2, -⟩ := hfields p _ hc
  rw [hp] at hr2
  obtain rfl := Option.some.inj hr2
  exact ⟨ht, hd2⟩

theorem insert_chunks_snd (sha : String → String) (t d : Int)
    (chunks : List ChunkDict) (v : Int) (embs? : Option (List E))
    (store : List (MRow E)) :
    ∃ extra, (insert_chunks sha t d chunks v embs? store).2 = store ++ extra ∧
      ∀ r ∈ extra, r.tenant_id = t ∧ r.document_id = d := by
  unfold insert_chunks
  cases hprep : prepareData sha t d v embs? 0 chunks with
  | none => exact ⟨[], by simp, by simp⟩
  | some data =>
    obtain ⟨extra, h1, h2⟩ := insertBatchesAux_store data.length data embs? store
    refine ⟨extra, h1, ?_⟩
    intro r hr
    obtain ⟨q, hq, hcore⟩ := h2 r hr
    obtain ⟨ht, hd2⟩ := prepareData_mem sha t d v embs? chunks 0 data hprep q hq
    obtain ⟨g1, g2, -⟩ := core_fields hcore
    exact ⟨g1.trans ht, g2.trans hd2⟩

theorem insert_chunks_fst (sha : String → String) (t d : Int)
    (chunks : List ChunkDict) (v : Int) (embs? : Option (List E))
    (store store' : List (MRow E)) :
    (insert_chunks sha t d chunks v embs? store).1
      = (insert_chunks sha t d chunks v embs? store').1 := by
  unfold insert_chunks
  cases hprep : prepareData sha t d v embs? 0 chunks with
  | none => rfl
  | some data => exact insertBatchesAux_fst data.length data embs? store store'

/-- Processing a document leaves the stored rows of every other
document untouched. -/
theorem processDocument_store_filter_frame (sha : String → String)
    (split : String → List String) (embedBatch : List String → List E)
    (loader : DocInfo → Except String (List LoadedDoc))
    (info : DocInfo) (st : IngestState E) (t d : Int)
    (hne : d ≠ info.document_id) :
    (processDocument sha split embedBatch loader info st).store.filter
        (fun r => evalExpr r (docExpr t d))
      = st.store.filter (fun r => evalExpr r (docExpr t d)) := by
  have hextra : ∀ (extra : List (MRow E)),
      (∀ r ∈ extra, r.tenant_id = info.tenant_id ∧ r.document_id = info.document_id) →
      extra.filter (fun r => evalExpr r (docExpr t d)) = [] := by
    intro extra hmem
    rw [List.filter_eq_nil_iff]
    intro r hr
    obtain ⟨-, hd2⟩ := hmem r hr
    simp only [evalExpr_docExpr, hd2, Bool.and_eq_true, beq_iff_eq, not_and]
    exact fun _ hh => hne hh.symm
  cases hl : loader info with
  | error msg => simp only [processDocument, hl]
  | ok ldocs =>
    simp only [processDocument, hl]
    split
    · split
      · rfl
      · split
        all_goals
          rename_i store1 heq
          obtain ⟨extra, hsnd, hmemx⟩ :=
            insert_chunks_snd sha info.tenant_id info.document_id _ _ _ _
          have h2 := congrArg Prod.snd heq
          rw [hsnd] at h2
          simp only at h2
          show store1.filter _ = _
          rw [← h2, List.filter_append, hextra extra hmemx, List.append_nil]
    · split
      · rfl
      · split
        all_goals
          rename_i store1 heq
          obtain ⟨extra, hsnd, hmemx⟩ :=
            insert_chunks_snd sha info.tenant_id info.document_id _ _ _ _
          have h2 := congrArg Prod.snd heq
          rw [hsnd] at h2
          simp only at h2
          show store1.filter _ = _
          rw [← h2, List.filter_append, hextra extra hmemx, List.append_nil]

/-- Processing a document leaves every other document record's status
unchanged. -/
theorem processDocument_status_other (sha : String → String)
    (split : String → List String) (embedBatch : List String → List E)
    (loader : DocInfo → Except String (List LoadedDoc))
    (info : DocInfo) (st : IngestState E) (j : Int) (hne : j ≠ info.document_id) :
    statusOf (processDocument sha split embedBatch loader info st).docs j
      = statusOf st.docs j := by
  cases hl : loader info with
  | error msg =>
    simp only [processDocument, hl]
    exact statusOf_updateDoc_other st.docs info.document_id
      (fun dd => { dd with status := "failed" }) (fun r => rfl) j hne
  | ok ldocs =>
    simp only [processDocument, hl]
    split <;> split <;>
      first
        | (show statusOf (updateDoc st.docs info.document_id _) j = statusOf st.docs j
           exact statusOf_updateDoc_other st.docs info.document_id _ (fun r => by rfl) j hne)
        | (split <;>
            (show statusOf (updateDoc st.docs info.document_id _) j = statusOf st.docs j
             exact statusOf_updateDoc_other st.docs info.document_id _ (fun r => by rfl) j hne))

/-- Processing a document neither creates nor deletes document
records. -/
theorem processDocument_isSome_frame (sha : String → String)
    (split : String → List String) (embedBatch : List String → List E)
    (loader : DocInfo → Except String (List LoadedDoc))
    (info : DocInfo) (st : IngestState E) (j : Int) :
    ((processDocument sha split embedBatch loader info st).docs.find?
        (fun dd => dd.id == j)).isSome
      = (st.docs.find? (fun dd => dd.id == j)).isSome := by
  cases hl : loader info with
  | error msg =>
    simp only [processDocument, hl]
    exact find?_isSome_updateDoc st.docs info.document_id
      (fun dd => { dd with status := "failed" }) (fun r => rfl) j
  | ok ldocs =>
    simp only [processDocument, hl]
    split <;> split <;>
      first
        | (show ((updateDoc st.docs info.document_id _).find? (fun dd => dd.id == j)).isSome
              = (st.docs.find? (fun dd => dd.id == j)).isSome
           exact find?_isSome_updateDoc st.docs info.document_id _ (fun r => by rfl) j)
        | (split <;>
            (show ((updateDoc st.docs info.document_id _).find? (fun dd => dd.id == j)).isSome
                = (st.docs.find? (fun dd => dd.id == j)).isSome
             exact find?_isSome_updateDoc st.docs info.document_id _ (fun r => by rfl) j))

theorem map_const_eq_of_isSome {o o' : Option DocRecord} (h : o.isSome = o'.isSome)
    (s : String) : o.map (fun _ => s) = o'.map (fun _ => s) := by
  cases o <;> cases o' <;> simp_all

theorem get_document_stats_congr {store store' : List (MRow E)} {t d : Int}
    (h : store.filter (fun r => evalExpr r (docExpr t d))
        = store'.filter (fun r => evalExpr r (docExpr t d))) :
    get_document_stats store t d = get_document_stats store' t d := by
  unfold get_document_stats
  rw [h]

theorem existingHashesQuery_congr {store store' : List (MRow E)} {t d : Int}
    (h : store.filter (fun r => evalExpr r (docExpr t d))
        = store'.filter (fun r => evalExpr r (docExpr t d))) :
    existingHashesQuery store t d = existingHashesQuery store' t d := by
  unfold existingHashesQuery
  rw [h]

theorem statusOf_congr_branch (docs docs' : List DocRecord) (i : Int)
    (f g : DocRecord → DocRecord) (s : String)
    (hfid : ∀ r, (f r).id = r.id) (hfs : ∀ r, (f r).status = s)
    (hgid : ∀ r, (g r).id = r.id) (hgs : ∀ r, (g r).status = s)
    (hdocs : (docs.find? (fun dd => dd.id == i)).isSome
        = (docs'.find? (fun dd => dd.id == i)).isSome) :
    statusOf (updateDoc docs i f) i = statusOf (updateDoc docs' i g) i := by
  rw [statusOf_updateDoc_self docs i f s hfid hfs,
    statusOf_updateDoc_self docs' i g s hgid hgs]
  exact map_const_eq_of_isSome hdocs s

/-- The status `_process_document` leaves on its own document depends on
the state only through that document's stored rows and the presence of
its `Document` record. -/
theorem processDocument_status_self_congr (sha : String → String)
    (split : String → List String) (embedBatch : List String → List E)
    (loader : DocInfo → Except String (List LoadedDoc))
    (info : DocInfo) (st st' : IngestState E)
    (hstore : st.store.filter
          (fun r => evalExpr r (docExpr info.tenant_id info.document_id))
        = st'.store.filter
          (fun r => evalExpr r (docExpr info.tenant_id info.document_id)))
    (hdocs : (st.docs.find? (fun dd => dd.id == info.document_id)).isSome
        = (st'.docs.find? (fun dd => dd.id == info.document_id)).isSome) :
    statusOf (processDocument sha split embedBatch loader info st).docs info.document_id
      = statusOf (processDocument sha split embedBatch loader info st').docs
          info.document_id := by
  have hstats := get_document_stats_congr hstore
  have hhash := existingHashesQuery_congr hstore
  cases hl : loader info with
  | error msg =>
    simp only [processDocument, hl]
    show statusOf (updateDoc st.docs info.document_id _) info.document_id
      = statusOf (updateDoc st'.docs info.document_id _) info.document_id
    exact statusOf_congr_branch st.docs st'.docs info.document_id _ _ "failed"
      (fun r => by rfl) (fun r => by rfl) (fun r => by rfl) (fun r => by rfl) hdocs
  | ok ldocs =>
    simp only [processDocument, hl]
    rw [hstats, hhash]
    split
    all_goals
      split
    all_goals
      try
        (show statusOf (updateDoc st.docs info.document_id _) info.document_id
          = statusOf (updateDoc st'.docs info.document_id _) info.document_id
         exact statusOf_congr_branch st.docs st'.docs info.document_id _ _ "ready"
           (fun r => by rfl) (fun r => by rfl) (fun r => by rfl) (fun r => by rfl) hdocs)
    all_goals
      split
    all_goals
      rename_i s1 heq1
      split
    all_goals
      rename_i s1' heq2
      have hfst := congrArg Prod.fst heq1
      rw [insert_chunks_fst sha info.tenant_id info.document_id _ _ _
        st.store st'.store] at hfst
      rw [heq2] at hfst
      simp only at hfst
    · show statusOf (updateDoc st.docs info.document_id _) info.document_id
        = statusOf (updateDoc st'.docs info.document_id _) info.document_id
      exact statusOf_congr_branch st.docs st'.docs info.document_id _ _ "failed"
        (fun r => by rfl) (fun r => by rfl) (fun r => by rfl) (fun r => by rfl) hdocs
    · exact absurd hfst (by simp)
    · exact absurd hfst (by simp)
    · show statusOf (updateDoc st.docs info.document_id _) info.document_id
        = statusOf (updateDoc st'.docs info.document_id _) info.document_id
      exact statusOf_congr_branch st.docs st'.docs info.document_id _ _ "ready"
        (fun r => by rfl) (fun r => by rfl) (fun r => by rfl) (fun r => by rfl) hdocs
    · show statusOf (updateDoc st.docs info.document_id _) info.document_id
        = statusOf (updateDoc st'.docs info.document_id _) info.document_id
      exact statusOf_congr_branch st.docs st'.docs info.document_id _ _ "failed"
        (fun r => by rfl) (fun r => by rfl) (fun r => by rfl) (fun r => by rfl) hdocs
    · exact absurd hfst (by simp)
    · exact absurd hfst (by simp)
    · show statusOf (updateDoc st.docs info.document_id _) info.document_id
        = statusOf (updateDoc st'.docs info.document_id _) info.document_id
      exact statusOf_congr_branch st.docs st'.docs info.document_id _ _ "ready"
        (fun r => by rfl) (fun r => by rfl) (fun r => by rfl) (fun r => by rfl) hdocs

/-- `_process_document` always leaves its own document's status at
"ready" or "failed" (when the record exists at all). -/
theorem processDocument_status_terminal (sha : String → String)
    (split : String → List String) (embedBatch : List String → List E)
    (loader : DocInfo → Except String (List LoadedDoc))
    (info : DocInfo) (st : IngestState E) :
    statusOf (processDocument sha split embedBatch loader info st).docs info.document_id
        = (st.docs.find? (fun dd => dd.id == info.document_id)).map (fun _ => "ready")
      ∨ statusOf (processDocument sha split embedBatch loader info st).docs
            info.document_id
        = (st.docs.find? (fun dd => dd.id == info.document_id)).map (fun _ => "failed") := by
  cases hl : loader info with
  | error msg =>
    refine Or.inr ?_
    simp only [processDocument, hl]
    show statusOf (updateDoc st.docs info.document_id _) info.document_id = _
    exact statusOf_updateDoc_self st.docs info.document_id _ "failed"
      (fun r => by rfl) (fun r => by rfl)
  | ok ldocs =>
    simp only [processDocument, hl]
    split
    all_goals
      split
    all_goals
      try
        (refine Or.inl ?_
         show statusOf (updateDoc st.docs info.document_id _) info.document_id = _
         exact statusOf_updateDoc_self st.docs info.document_id _ "ready"
           (fun r => by rfl) (fun r => by rfl))
    all_goals
      split
    · refine Or.inr ?_
      show statusOf (updateDoc st.docs info.document_id _) info.document_id = _
      exact statusOf_updateDoc_self st.docs info.document_id _ "failed"
        (fun r => by rfl) (fun r => by rfl)
    · refine Or.inl ?_
      show statusOf (updateDoc st.docs info.document_id _) info.document_id = _
      exact statusOf_updateDoc_self st.docs info.document_id _ "ready"
        (fun r => by rfl) (fun r => by rfl)
    · refine Or.inr ?_
      show statusOf (updateDoc st.docs info.document_id _) info.document_id = _
      exact statusOf_updateDoc_self st.docs info.document_id _ "failed"
        (fun r => by rfl) (fun r => by rfl)
    · refine Or.inl ?_
      show statusOf (updateDoc st.docs info.document_id _) info.document_id = _
      exact statusOf_updateDoc_self st.docs info.document_id _ "ready"
        (fun r => by rfl) (fun r => by rfl)

/-- Statuses of documents outside the batch are untouched by
`_process_batch`. -/
theorem processBatch_status_other (sha : String → String)
    (split : String → List String) (embedBatch : List String → List E)
    (loader : DocInfo → Except String (List LoadedDoc))
    (batch : List DocInfo) (st : IngestState E) (j : Int)
    (hj : ∀ info ∈ batch, j ≠ info.document_id) :
    statusOf (processBatch sha split embedBatch loader batch st).docs j
      = statusOf st.docs j := by
  induction batch generalizing st with
  | nil => rfl
  | cons i rest ih =>
    have h1 := processDocument_status_other sha split embedBatch loader i st j
      (hj i (List.mem_cons_self i rest))
    have h2 := ih (processDocument sha split embedBatch loader i st)
      (fun inf hmem => hj inf (List.mem_cons_of_mem i hmem))
    simp only [processBatch, List.foldl_cons] at h2 ⊢
    exact h2.trans h1

/-- After `_process_batch`, each document of a batch of pairwise
distinct document ids carries exactly the status it would get from
processing it alone on the initial state. -/
theorem processBatch_status_eq (sha : String → String)
    (split : String → List String) (embedBatch : List String → List E)
    (loader : DocInfo → Except String (List LoadedDoc))
    (batch : List DocInfo) (st : IngestState E)
    (hnodup : (batch.map (fun i => i.document_id)).Nodup) :
    ∀ info ∈ batch,
      statusOf (processBatch sha split embedBatch loader batch st).docs info.document_id
        = statusOf (processDocument sha split embedBatch loader info st).docs
            info.document_id := by
  revert hnodup
  induction batch generalizing st with
  | nil =>
    intro _ info h
    exact absurd h (List.not_mem_nil info)
  | cons i rest ih =>
    intro hnodup info hmem
    rw [List.map_cons, List.nodup_cons] at hnodup
    obtain ⟨hni, hrest⟩ := hnodup
    rcases List.mem_cons.mp hmem with rfl | hmem'
    · have hj : ∀ inf ∈ rest, info.document_id ≠ inf.document_id := by
        intro inf hin heq
        exact hni (heq ▸ List.mem_map_of_mem (fun x => x.document_id) hin)
      simp only [processBatch, List.foldl_cons]
      exact processBatch_status_other sha split embedBatch loader rest
        (processDocument sha split embedBatch loader info st) info.document_id hj
    · have hne : info.document_id ≠ i.document_id := by
        intro heq
        exact hni (heq ▸ List.mem_map_of_mem (fun x => x.document_id) hmem')
      have ih2 := ih (processDocument sha split embedBatch loader i st) hrest info hmem'
      have hcong := processDocument_status_self_congr sha split embedBatch loader info
        (processDocument sha split embedBatch loader i st) st
        (processDocument_store_filter_frame sha split embedBatch loader i st
          info.tenant_id info.document_id hne)
        (processDocument_isSome_frame sha split embedBatch loader i st info.document_id)
      simp only [processBatch, List.foldl_cons] at ih2 ⊢
      exact ih2.trans hcong

/-- C8: for every batch of pairwise distinct document ids processed by
`_process_batch`, each document's outcome is captured independently:
(its final status equals the status it would get when processed alone on
the initial state, so a failing sibling does not affect it), a document
whose load step raises is simply marked "failed" (the exception is
swallowed by the per-document handler and the `return_exceptions=True`
fan-in, never reaching the worker loop, which is why `processBatch`
is a total function that keeps folding over the remaining documents),
and every document ends at its own terminal status "ready" or
"failed". -/
theorem c8_batch_outcomes_independent (sha : String → String)
    (split : String → List String) (embedBatch : List String → List E)
    (loader : DocInfo → Except String (List LoadedDoc))
    (batch : List DocInfo) (st : IngestState E)
    (hnodup : (batch.map (fun i => i.document_id)).Nodup) :
    ∀ info ∈ batch,
      (statusOf (processBatch sha split embedBatch loader batch st).docs
            info.document_id
          = statusOf (processDocument sha split embedBatch loader info st).docs
              info.document_id)
      ∧ (∀ msg, loader info = .error msg →
          statusOf (processBatch sha split embedBatch loader batch st).docs
              info.document_id
            = (st.docs.find? (fun dd => dd.id == info.document_id)).map
                (fun _ => "failed"))
      ∧ (statusOf (processBatch sha split embedBatch loader batch st).docs
              info.document_id
            = (st.docs.find? (fun dd => dd.id == info.document_id)).map
                (fun _ => "ready")
          ∨ statusOf (processBatch sha split embedBatch loader batch st).docs
              info.document_id
            = (st.docs.find? (fun dd => dd.id == info.document_id)).map
                (fun _ => "failed")) := by
  intro info hmem
  have h1 := processBatch_status_eq sha split embedBatch loader batch st hnodup info hmem
  refine ⟨h1, ?_, ?_⟩
  · intro msg hl
    rw [h1]
    simp only [processDocument, hl]
    show statusOf (updateDoc st.docs info.document_id _) info.document_id = _
    exact statusOf_updateDoc_self st.docs info.document_id _ "failed"
      (fun r => by rfl) (fun r => by rfl)
  · rw [h1]
    exact processDocument_status_terminal sha split embedBatch loader info st

def c8sha : String → String := fun s => s

def c8split : String → List String := fun s => [s]

def c8embed : List String → List Int := fun ts => ts.map (fun t => Int.ofNat t.length)

def c8loader : DocInfo → Except String (List LoadedDoc) := fun i =>
  if i.document_id == 2 then Except.error "loader boom"
  else Except.ok [{ text := "alpha", source := "a.txt", metadata := "{}" }]

def c8info1 : DocInfo :=
  { tenant_id := 1, document_id := 1, file_type := "txt",
    file_path := some "a.txt", source_url := none }

def c8info2 : DocInfo :=
  { tenant_id := 1, document_id := 2, file_type := "txt",
    file_path := some "b.txt", source_url := none }

def c8info3 : DocInfo :=
  { tenant_id := 1, document_id := 3, file_type := "txt",
    file_path := some "c.txt", source_url := none }

def c8batch : List DocInfo := [c8info1, c8info2, c8info3]

def c8st : IngestState Int :=
  { store := [],
    docs := [{ id := 1, status := "processing", chunk_count := 0, version := 1 },
             { id := 2, status := "processing", chunk_count := 0, version := 1 },
             { id := 3, status := "processing", chunk_count := 0, version := 1 }],
    embedCalls := 0 }

theorem c8_batch_witness :
    (c8batch.map (fun i => i.document_id)).Nodup
    ∧ c8info2 ∈ c8batch
    ∧ c8loader c8info2 = Except.error "loader boom"
    ∧ statusOf (processBatch c8sha c8split c8embed c8loader c8batch c8st).docs
          c8info2.document_id
        = (c8st.docs.find? (fun dd => dd.id == c8info2.document_id)).map
            (fun _ => "failed")
    ∧ statusOf (processBatch c8sha c8split c8embed c8loader c8batch c8st).docs
          c8info1.document_id
        = statusOf (processDocument c8sha c8split c8embed c8loader c8info1 c8st).docs
            c8info1.document_id
    ∧ statusOf (processBatch c8sha c8split c8embed c8loader c8batch c8st).docs 2
        = some "failed"
    ∧ statusOf (processBatch c8sha c8split c8embed c8loader c8batch c8st).docs 1
        = some "ready"
    ∧ statusOf (processBatch c8sha c8split c8embed c8loader c8batch c8st).docs 3
        = some "ready" :=
  ⟨by decide, by decide, by rfl,
   (c8_batch_outcomes_independent c8sha c8split c8embed c8loader c8batch c8st
      (by decide) c8info2 (by decide)).2.1 "loader boom" (by rfl),
   (c8_batch_outcomes_independent c8sha c8split c8embed c8loader c8batch c8st
      (by decide) c8info1 (by decide)).1,
   by decide, by decide, by decide⟩

/-- The conjunct fold of `searchExprOf` only strengthens its
accumulator: a row matching the folded expression matches the initial
expression. -/
theorem evalExpr_foldl_filters (r : MRow E) (fs : List (String × FilterVal)) :
    ∀ e : MilvusExpr,
      evalExpr r
          (fs.foldl
            (fun e kv =>
              match kv.2 with
              | .int v => .and e (.eqInt kv.1 v)
              | .list vs => .and e (.inList kv.1 vs))
            e) = true →
      evalExpr r e = true := by
  induction fs with
  | nil => intro e h; exact h
  | cons kv rest ih =>
    intro e h
    rw [List.foldl_cons] at h
    have h2 := ih _ h
    cases hv : kv.2 with
    | int v =>
      rw [hv] at h2
      exact (Bool.and_eq_true _ _ |>.mp h2).1
    | list vs =>
      rw [hv] at h2
      exact (Bool.and_eq_true _ _ |>.mp h2).1

theorem evalExpr_searchExprOf_tenant {r : MRow E} {t : Int}
    {fs : List (String × FilterVal)}
    (h : evalExpr r (searchExprOf t fs) = true) : r.tenant_id = t := by
  have h2 := evalExpr_foldl_filters r fs (.eqInt "tenant_id" t) h
  simpa [evalExpr, fieldVal] using h2

theorem tenant_filter_absorb (store : List (MRow E)) (t d : Int) :
    (store.filter (fun r => r.tenant_id == t)).filter
        (fun r => evalExpr r (docExpr t d))
      = store.filter (fun r => evalExpr r (docExpr t d)) := by
  rw [List.filter_filter]
  apply List.filter_congr
  intro a _
  rw [evalExpr_docExpr]
  cases h1 : (a.tenant_id == t) <;> cases h2 : (a.document_id == d) <;> simp [h1, h2]

/-- C3: tenant isolation of every vector-store operation.  With the ANN
engine abstracted as a `ranked` function that only selects among the
rows the filter expression admits: (1) every candidate row `search`
returns carries the querying tenant's id, whatever additional filters
are passed; (2) `delete_document_chunks` keeps every row of any other
tenant and only removes rows (it never touches rows outside the given
store); (3) `get_document_stats` and (4) the existing-hash ingestion
query are computed entirely from the querying tenant's own rows, so
rows of other tenants - including rows with a colliding document id -
never influence the result; and (5) every hash the existing-hash query
returns comes from a stored row of the given tenant and document. -/
theorem c3_tenant_isolation (store : List (MRow E)) (A : Int)
    (ranked : List (MRow E) → List (MRow E))
    (hranked : ∀ (l : List (MRow E)) (r : MRow E), r ∈ ranked l → r ∈ l)
    (top_k : Nat) (filters : List (String × FilterVal)) (d : Int) :
    (∀ r ∈ searchHits ranked store A top_k filters, r.tenant_id = A)
    ∧ (∀ r ∈ store, r.tenant_id ≠ A → r ∈ delete_document_chunks store A d)
    ∧ (∀ r ∈ delete_document_chunks store A d, r ∈ store)
    ∧ get_document_stats store A d
        = get_document_stats (store.filter (fun r => r.tenant_id == A)) A d
    ∧ existingHashesQuery store A d
        = existingHashesQuery (store.filter (fun r => r.tenant_id == A)) A d
    ∧ (∀ h ∈ existingHashesQuery store A d,
        ∃ r ∈ store, r.tenant_id = A ∧ r.document_id = d ∧ r.content_hash = h) := by
  refine ⟨?_, ?_, ?_, ?_, ?_, ?_⟩
  · intro r hr
    have h1 : r ∈ ranked (store.filter (fun x => evalExpr x (searchExprOf A filters))) :=
      List.take_subset top_k _ hr
    have h2 := hranked _ r h1
    exact evalExpr_searchExprOf_tenant (List.mem_filter.mp h2).2
  · intro r hr hne
    refine List.mem_filter.mpr ⟨hr, ?_⟩
    simp [evalExpr_docExpr, hne]
  · intro r hr
    exact List.mem_of_mem_filter hr
  · exact get_document_stats_congr (tenant_filter_absorb store A d).symm
  · exact existingHashesQuery_congr (tenant_filter_absorb store A d).symm
  · intro h hmem
    obtain ⟨r, hr, hh⟩ := List.mem_map.mp hmem
    have hr2 := List.mem_filter.mp hr
    have he := hr2.2
    rw [evalExpr_docExpr] at he
    obtain ⟨h1, h2⟩ := Bool.and_eq_true _ _ |>.mp he
    exact ⟨r, hr2.1, by simpa using h1, by simpa using h2, hh⟩

def c3row (t d ci : Int) (h : String) : MRow Nat :=
  { tenant_id := t, document_id := d, chunk_index := ci, chunk_version := 1,
    content_hash := h, text := "txt", source := "src", metadata := "{}",
    embedding := none }

/-- Two tenants whose document ids collide (document 7 exists for both
tenant 1 and tenant 2). -/
def c3store : List (MRow Nat) :=
  [c3row 1 7 0 "h10", c3row 2 7 0 "h20", c3row 1 8 0 "h11", c3row 2 9 0 "h21"]

theorem c3_tenant_isolation_witness :
    (∀ (l : List (MRow Nat)) (r : MRow Nat), r ∈ (fun x => x) l → r ∈ l)
    ∧ (∀ r ∈ searchHits (fun x => x) c3store 1 5 [("document_id", FilterVal.int 7)],
        r.tenant_id = 1)
    ∧ (∀ r ∈ c3store, r.tenant_id ≠ 1 → r ∈ delete_document_chunks c3store 1 7)
    ∧ get_document_stats c3store 1 7
        = get_document_stats (c3store.filter (fun r => r.tenant_id == 1)) 1 7
    ∧ (∀ h ∈ existingHashesQuery c3store 1 7,
        ∃ r ∈ c3store, r.tenant_id = 1 ∧ r.document_id = 7 ∧ r.content_hash = h)
    ∧ searchHits (fun x => x) c3store 1 5 [("document_id", FilterVal.int 7)]
        = [c3row 1 7 0 "h10"]
    ∧ delete_document_chunks c3store 1 7
        = [c3row 2 7 0 "h20", c3row 1 8 0 "h11", c3row 2 9 0 "h21"]
    ∧ get_document_stats c3store 1 7 = (1, 1)
    ∧ existingHashesQuery c3store 1 7 = ["h10"] :=
  ⟨fun _ _ h => h,
   (c3_tenant_isolation c3store 1 (fun x => x) (fun _ _ h => h) 5
      [("document_id", FilterVal.int 7)] 7).1,
   (c3_tenant_isolation c3store 1 (fun x => x) (fun _ _ h => h) 5
      [("document_id", FilterVal.int 7)] 7).2.1,
   (c3_tenant_isolation c3store 1 (fun x => x) (fun _ _ h => h) 5
      [("document_id", FilterVal.int 7)] 7).2.2.2.1,
   (c3_tenant_isolation c3store 1 (fun x => x) (fun _ _ h => h) 5
      [("document_id", FilterVal.int 7)] 7).2.2.2.2.2,
   by decide, by decide, by decide, by decide⟩

end LLMRag
